import Mathlib

/-!
# Verification of the Robot Buddy backend core (`backend/server.py`)

A shallow embedding of the pure core of the backend: mode classification
(`detect_mode`), fact retrieval and ranking (`retrieve_facts`), answer shaping
(`shortify_answer`), message assembly for the non-stream chat path, the chat
orchestration around an abstracted upstream call, and the streaming event
generator as a function from the sequence of upstream lines to the sequence of
emitted events.

Modelling conventions:
* Python strings are Lean `String`s; character-level processing works on
  `List Char`.  Python's `\s` / `str.split()` / `str.strip()` whitespace class
  is modelled by `Char.isWhitespace`, and `str.lower` by `Char.toLower`
  (both agree on the ASCII texts the backend manipulates).
* Python's `re.sub(r"\s+", " ", s)`, `re.split(r"\W+", s)` and
  `re.split(r"(?<=[.!?])\s+", s)` are modelled by explicit state-machine
  scanners (`collapseGo`, `runsGo`, `sentGo`) that process one character at a
  time; each replicates the regex behaviour: collapse every maximal
  whitespace run to one space, keep the maximal word-character runs, and cut
  after a terminal character that is directly followed by whitespace while
  consuming that whitespace run.
* `list.sort(key=lambda v: v[0], reverse=True)` (Python's stable sort, in
  descending key order, ties keeping list order) is modelled by
  `List.insertionSort` with the relation `fun a b => b.1 ≤ a.1`, which is the
  same stable descending sort (stability is proved below as
  `insertionSort_filter_fst`).
* The knowledge-store file is abstracted as a `StoreFile`: missing, failing to
  parse, or a parsed JSON document; JSON numbers are modelled as integers
  (only their truthiness matters here).
* The HTTP exchange with the inference backend is abstracted as an
  `UpstreamOutcome` (non-stream path) or a list of received lines plus a
  mid-stream failure flag (stream path); an exception anywhere in the Python
  `try` block is the `failure` / `malformed` / mid-failure case.
-/

/-! ## Character classes -/

/-- Characters counted as terminal punctuation by the sentence splitter and the
final-character check: the Python class `[.!?]` and string `".!?"`. -/
def isTermChar (c : Char) : Bool :=
  c == '.' || c == '!' || c == '?'

/-- The punctuation characters stripped from a word-truncated answer:
Python `rstrip(".,;:!?")`. -/
def isPunctChar (c : Char) : Bool :=
  c == '.' || c == ',' || c == ';' || c == ':' || c == '!' || c == '?'

/-- Word characters for tokenization: Python `\w`, i.e. the complement of the
`\W` used in `re.split(r"\W+", ...)` (ASCII model). -/
def isWordChar (c : Char) : Bool :=
  c.isAlphanum || c == '_'

/-! ## Whitespace normalisation: `re.sub(r"\s+", " ", s)` and `str.strip()` -/

/-- One-pass scanner for `re.sub(r"\s+", " ", s)`.  The flag records whether
the scanner is inside a whitespace run whose single `' '` has already been
emitted. -/
def collapseGo : Bool → List Char → List Char
  | _, [] => []
  | true, c :: cs =>
      if c.isWhitespace then collapseGo true cs else c :: collapseGo false cs
  | false, c :: cs =>
      if c.isWhitespace then ' ' :: collapseGo true cs else c :: collapseGo false cs

/-- `re.sub(r"\s+", " ", s)`: every maximal whitespace run becomes one space. -/
def pyCollapse (l : List Char) : List Char :=
  collapseGo false l

/-- Remove leading whitespace (left half of `str.strip()`). -/
def lstripWS (l : List Char) : List Char :=
  l.dropWhile Char.isWhitespace

/-- Remove trailing whitespace (right half of `str.strip()`). -/
def rstripWS (l : List Char) : List Char :=
  (l.reverse.dropWhile Char.isWhitespace).reverse

/-- Python `str.strip()`. -/
def pyStrip (l : List Char) : List Char :=
  rstripWS (lstripWS l)

/-- Python `s.rstrip(".,;:!?")`. -/
def rstripPunct (l : List Char) : List Char :=
  (l.reverse.dropWhile isPunctChar).reverse

/-! ## Maximal-run splitting: `str.split()` and `re.split(r"\W+", ...)` -/

/-- Scanner returning the maximal runs of characters satisfying `p`, dropping
the separating characters.  `cur` holds the current run, reversed.
With `p := fun c => !c.isWhitespace` this is Python `str.split()`;
with `p := isWordChar` it is `re.split(r"\W+", s)` minus the empty pieces. -/
def runsGo (p : Char → Bool) (cur : List Char) : List Char → List (List Char)
  | [] => if cur.isEmpty then [] else [cur.reverse]
  | c :: cs =>
      if p c then runsGo p (c :: cur) cs
      else if cur.isEmpty then runsGo p [] cs
      else cur.reverse :: runsGo p [] cs

/-- Python `s.split()`: the whitespace-separated words of `s`. -/
def wordsOf (l : List Char) : List (List Char) :=
  runsGo (fun c => !c.isWhitespace) [] l

/-! ## Sentence splitting: `re.split(r"(?<=[.!?])\s+", s)` -/

/-- Does the (reversed) current piece end with a terminal character? -/
def endsTerm : List Char → Bool
  | [] => false
  | c :: _ => isTermChar c

/-- Scanner for `re.split(r"(?<=[.!?])\s+", s)`.  `cur` is the current piece,
reversed.  The flag is true while consuming the whitespace run that follows a
cut (the `\s+` of a match).  A cut happens exactly when the piece so far ends
with one of `.!?` and the next character is whitespace. -/
def sentGo : Bool → List Char → List Char → List (List Char)
  | _, cur, [] => [cur.reverse]
  | true, cur, c :: cs =>
      if c.isWhitespace then sentGo true cur cs else sentGo false (c :: cur) cs
  | false, cur, c :: cs =>
      if c.isWhitespace && endsTerm cur then cur.reverse :: sentGo true [] cs
      else sentGo false (c :: cur) cs

/-- The pieces of `re.split(r"(?<=[.!?])\s+", s)`. -/
def sentPieces (l : List Char) : List (List Char) :=
  sentGo false [] l

/-- `[s.strip() for s in re.split(r"(?<=[.!?])\s+", cleaned) if s.strip()]`. -/
def sentencesOf (l : List Char) : List (List Char) :=
  ((sentPieces l).map pyStrip).filter (· ≠ [])

/-! ## The answer shaper: `shortify_answer` (server.py lines 126-140) -/

/-- The fixed fallback phrase of `shortify_answer`. -/
def fallbackPhrase : String :=
  "Sorry, ik weet het nu even niet zeker."

/-- Word-truncation stage (server.py lines 128-130): if the cleaned text has
more than 80 words, keep the first 80 joined by single spaces, strip trailing
punctuation from the cut point and append a period. -/
def afterWordTrunc (cleaned : List Char) : List Char :=
  if (wordsOf cleaned).length > 80 then
    rstripPunct (List.intercalate [' '] ((wordsOf cleaned).take 80)) ++ ['.']
  else cleaned

/-- The final-punctuation fixup (server.py lines 135-136): append a period
when the text is non-empty and does not end in terminal punctuation. -/
def ensureTerminal (c : List Char) : List Char :=
  match c.getLast? with
  | none => c
  | some last => if isTermChar last then c else c ++ ['.']

/-- Sentence-truncation stage (server.py lines 132-136): if the text splits
into more than 4 sentences, keep the first 4 joined by single spaces and
stripped, appending a period when the cut text does not already end in
terminal punctuation. -/
def afterSentTrunc (cleaned : List Char) : List Char :=
  if (sentencesOf cleaned).length > 4 then
    ensureTerminal (pyStrip (List.intercalate [' '] ((sentencesOf cleaned).take 4)))
  else cleaned

/-- Character-level body of `shortify_answer` (server.py lines 126-140):
collapse whitespace and strip, truncate to 80 words, truncate to 4 sentences,
and fall back to the fixed phrase when the result is empty. -/
def shortChars (answer : List Char) : List Char :=
  if afterSentTrunc (afterWordTrunc (pyStrip (pyCollapse answer))) = [] then
    fallbackPhrase.toList
  else afterSentTrunc (afterWordTrunc (pyStrip (pyCollapse answer)))

/-- `shortify_answer` (server.py lines 126-140). -/
def shortify_answer (answer : String) : String :=
  String.mk (shortChars answer.toList)

/-! ## Tokenization and overlap scoring (server.py lines 55-56, 85-90) -/

/-- `tokenize` (server.py lines 55-56): lowercase, split on non-word runs,
drop empty tokens.  Result as character lists. -/
def tokenize (text : String) : List (List Char) :=
  runsGo isWordChar [] (text.toList.map Char.toLower)

/-- `len(set(tokenize(query)).intersection(set(tokenize(item))))`
(server.py line 88): the number of distinct query tokens occurring among the
item's tokens. -/
def overlapScore (query item : String) : Nat :=
  (((tokenize query).dedup).filter (fun t => t ∈ tokenize item)).length

/-! ## The knowledge store (server.py lines 68-95) -/

/-- JSON documents as parsed by `json.load` (numbers as integers: only their
truthiness is relevant to this code). -/
inductive Json where
  | null : Json
  | bool (b : Bool) : Json
  | num (n : Int) : Json
  | str (s : String) : Json
  | arr (elems : List Json) : Json
  | obj (fields : List (String × Json)) : Json

/-- Python truthiness of a parsed JSON value (`None`, `False`, `0`, `""`,
`[]`, `{}` are falsy). -/
def Json.truthy : Json → Bool
  | .null => false
  | .bool b => b
  | .num n => n != 0
  | .str s => !(s == "")
  | .arr elems => !elems.isEmpty
  | .obj fields => !fields.isEmpty

/-- `row.get(key)`: the value at `key`, or `None` when absent. -/
def Json.getField (fields : List (String × Json)) (key : String) : Json :=
  match fields.lookup key with
  | some v => v
  | none => .null

/-- Is this document a JSON array? (`isinstance(data, list)`) -/
def Json.isArr : Json → Bool
  | .arr _ => true
  | _ => false

/-- Python `str.strip()` on a `String`. -/
def pyStripStr (s : String) : String :=
  String.mk (pyStrip s.toList)

/-- One iteration of the item-collection loop (server.py lines 77-83):
a string row is kept as is; a dict row contributes
`row.get("text") or row.get("content") or ""` when that value is a string
with non-empty strip, stripped; anything else is skipped. -/
def rowText : Json → Option String
  | .str s => some s
  | .obj fields =>
      let t :=
        if (Json.getField fields "text").truthy then Json.getField fields "text"
        else if (Json.getField fields "content").truthy then Json.getField fields "content"
        else .str ""
      match t with
      | .str s => if pyStripStr s = "" then none else some (pyStripStr s)
      | _ => none
  | _ => none

/-- The `items` list built by `retrieve_facts` (server.py lines 75-83):
empty unless the document is an array. -/
def extractItems : Json → List String
  | .arr rows => rows.filterMap rowText
  | _ => []

/-- The knowledge-store file as seen by `retrieve_facts`: absent, present but
not valid JSON (`json.load` raises, caught by the bare `except`), or parsed. -/
inductive StoreFile where
  | missing : StoreFile
  | corrupt : StoreFile
  | parsed (data : Json) : StoreFile

/-- The `scored` list (server.py lines 86-90): each item paired with its
overlap, keeping only positive overlaps, in item order. -/
def scoredOf (query : String) (items : List String) : List (Nat × String) :=
  (items.map (fun item => (overlapScore query item, item))).filter
    (fun p => 0 < p.1)

/-- The descending stable sort of server.py line 92
(`scored.sort(key=lambda value: value[0], reverse=True)`). -/
def sortScored (scored : List (Nat × String)) : List (Nat × String) :=
  scored.insertionSort (fun a b => b.1 ≤ a.1)

/-- Ranking core of `retrieve_facts` (server.py lines 85-93). -/
def rankFacts (query : String) (items : List String) : List String :=
  ((sortScored (scoredOf query items)).take 8).map Prod.snd

/-- `retrieve_facts` (server.py lines 68-95): any fault loading or parsing the
store yields `[]`; otherwise rank the extracted items against the query. -/
def retrieve_facts (query : String) (store : StoreFile) : List String :=
  match store with
  | .missing => []
  | .corrupt => []
  | .parsed data => rankFacts query (extractItems data)

/-- The items a store contributes before scoring (for stating store-order
stability). -/
def storeItems : StoreFile → List String
  | .missing => []
  | .corrupt => []
  | .parsed data => extractItems data

/-! ## Mode classification (server.py lines 19-41, 59-65) -/

/-- `HIGH_RISK_KEYWORDS` (server.py lines 19-27).  The Python value is a set;
membership tests below are order-independent, so a list is a faithful model. -/
def HIGH_RISK_KEYWORDS : List String :=
  ["zelfmoord", "suicide", "verkrachting", "rape", "ik wil dood",
   "mezelf pijn", "acute nood"]

/-- `SENSITIVE_KEYWORDS` (server.py lines 29-41). -/
def SENSITIVE_KEYWORDS : List String :=
  ["depressie", "angst", "paniek", "ptss", "therapie", "medisch",
   "dokter", "juridisch", "advocaat", "misdaad", "crime"]

/-- Does `kw` start `text`? (helper for the substring test) -/
def startsWithChars : List Char → List Char → Bool
  | _, [] => true
  | [], _ :: _ => false
  | c :: cs, k :: ks => c == k && startsWithChars cs ks

/-- Python `kw in text`: does `kw` occur contiguously in `text`? -/
def containsKw (text kw : List Char) : Bool :=
  startsWithChars text kw ||
    match text with
    | [] => false
    | _ :: cs => containsKw cs kw

/-- `detect_mode` (server.py lines 59-65); `user_text.lower()` is
character-wise `Char.toLower`. -/
def detect_mode (user_text : String) : String :=
  let text := user_text.toList.map Char.toLower
  if HIGH_RISK_KEYWORDS.any (fun kw => containsKw text kw.toList) then
    "high_risk"
  else if SENSITIVE_KEYWORDS.any (fun kw => containsKw text kw.toList) then
    "serious"
  else "playful"

/-! ## Chat orchestration (server.py lines 44-52, 161-188) -/

/-- A history turn of a `ChatRequest` (server.py lines 44-46). -/
structure HistoryItem where
  role : String
  content : String
deriving DecidableEq

/-- `ChatRequest` (server.py lines 49-52). -/
structure ChatRequest where
  user_text : String
  history : List HistoryItem
  conversation_id : Option String
deriving DecidableEq

/-- One message forwarded to the model. -/
structure Message where
  role : String
  content : String
deriving DecidableEq

/-- The message list built by `chat` (server.py lines 167-171): the system
prompt, then the last 12 history turns with every role other than
`"assistant"` coerced to `"user"`, then the current user turn.
`history[-12:]` is `drop (length - 12)`. -/
def chatMessages (system_prompt : String) (req : ChatRequest) : List Message :=
  Message.mk "system" system_prompt ::
    ((req.history.drop (req.history.length - 12)).map
      (fun item =>
        Message.mk (if item.role = "assistant" then "assistant" else "user")
          item.content))
    ++ [Message.mk "user" req.user_text]

/-- The non-stream upstream exchange, abstracted: either the extracted
`message.content` of a successful call, or any exception in the `try` block
(connection error, non-2xx status, body that fails to parse or has an
unexpected shape). -/
inductive UpstreamOutcome where
  | ok (content : String) : UpstreamOutcome
  | failure : UpstreamOutcome

/-- The response of the `/chat` endpoint: HTTP status plus JSON body fields. -/
structure ChatResponse where
  status : Nat
  mode : String
  answer : String
  facts_used : List String
deriving DecidableEq

/-- The fixed localized fallback answer of the error paths
(server.py lines 185 and 218). -/
def fallbackAnswer : String :=
  "Ik kan het model nu niet bereiken. Start Ollama en probeer opnieuw."

/-- `chat` (server.py lines 161-188): classify, retrieve, call upstream; on
success return the shaped answer with status 200, on any failure return the
fixed fallback answer with status 503; both carry the mode and the first five
ranked facts. -/
def chat (req : ChatRequest) (store : StoreFile) (upstream : UpstreamOutcome) :
    ChatResponse :=
  let mode := detect_mode req.user_text
  let facts := retrieve_facts req.user_text store
  match upstream with
  | .ok content =>
      ChatResponse.mk 200 mode (shortify_answer content) (facts.take 5)
  | .failure =>
      ChatResponse.mk 503 mode fallbackAnswer (facts.take 5)

/-! ## The streaming event generator (server.py lines 202-221) -/

/-- One line received from the upstream stream, classified by how
`event_generator` reacts to it: falsy (empty) lines are skipped; lines on
which `json.loads` (or the subsequent field access) raises are `malformed`;
a parsed line carries its `message.content` (empty when absent) and its
`done` flag. -/
inductive Line where
  | empty : Line
  | malformed : Line
  | parsed (content : String) (done : Bool) : Line
deriving DecidableEq

/-- The events emitted on the SSE stream (the JSON payloads of the
`data: ...` frames). -/
inductive StreamEvent where
  | chunk (text : String) : StreamEvent
  | doneEvent (mode : String) (facts_used : List String) : StreamEvent
  | errorEvent (message : String) (mode : String) : StreamEvent
deriving DecidableEq

/-- The upstream stream as seen by `event_generator`: either the connection
attempt itself fails (`call_ollama` or `raise_for_status` raises), or a list
of received lines, with a flag telling whether iteration raises after them
(mid-stream network failure). -/
inductive StreamInput where
  | connFail : StreamInput
  | lines (received : List Line) (midFail : Bool) : StreamInput

/-- The loop of `event_generator` (server.py lines 206-215) plus the
surrounding `try`/`except`: skip empty lines; a malformed line raises, so the
`except` emits the single error event; a parsed line emits its content as a
chunk when non-empty, and its `done` flag breaks out to the single done
event; exhausting the lines without failure also reaches the done event. -/
def runLines (mode : String) (facts : List String) :
    List Line → Bool → List StreamEvent
  | [], true => [StreamEvent.errorEvent fallbackAnswer mode]
  | [], false => [StreamEvent.doneEvent mode (facts.take 5)]
  | .empty :: rest, midFail => runLines mode facts rest midFail
  | .malformed :: _, _ => [StreamEvent.errorEvent fallbackAnswer mode]
  | .parsed content done :: rest, midFail =>
      (if content ≠ "" then [StreamEvent.chunk content] else []) ++
        (if done then [StreamEvent.doneEvent mode (facts.take 5)]
         else runLines mode facts rest midFail)

/-- `event_generator` (server.py lines 202-221) as a function from the
abstracted upstream stream to the emitted event sequence. -/
def event_generator (mode : String) (facts : List String) :
    StreamInput → List StreamEvent
  | .connFail => [StreamEvent.errorEvent fallbackAnswer mode]
  | .lines received midFail => runLines mode facts received midFail

/-- The chunk text a line contributes, if any. -/
def lineChunk : Line → Option String
  | .parsed content _ => if content ≠ "" then some content else none
  | _ => none

/-- The lines of a `StreamInput`. -/
def inputLines : StreamInput → List Line
  | .connFail => []
  | .lines received _ => received

/-- Is an event terminal (done or error)? -/
def isTerminalEvent : StreamEvent → Bool
  | .chunk _ => false
  | .doneEvent _ _ => true
  | .errorEvent _ _ => true

/-- A line that lets the loop continue: not malformed and without the `done`
flag (used to state which prefixes keep a stream alive). -/
def keepsStreaming : Line → Bool
  | .empty => true
  | .malformed => false
  | .parsed _ done => !done

/-- `l₁` is an initial segment of `l₂`. -/
def isInitialSegment {α : Type} (l₁ l₂ : List α) : Prop :=
  ∃ t, l₁ ++ t = l₂


/-! ## Normal forms of shaped text (proof infrastructure) -/

/-- No two adjacent characters form a bad pair (shared shape of the
no-adjacent-whitespace and no-sentence-split-point predicates). -/
def adjOK (bad : Char -> Char -> Bool) : List Char -> Bool
  | a :: b :: t => !(bad a b) && adjOK bad (b :: t)
  | _ => true

/-- No two adjacent whitespace characters. -/
def noAdjWS (l : List Char) : Bool :=
  adjOK (fun a b => a.isWhitespace && b.isWhitespace) l

/-- No sentence split point: no terminal character directly followed by
whitespace. -/
def noSP (l : List Char) : Bool :=
  adjOK (fun a b => isTermChar a && b.isWhitespace) l

/-- Every whitespace character is a plain space. -/
def allSpaceWS (l : List Char) : Bool :=
  l.all (fun c => !c.isWhitespace || c == ' ')

/-- The first character, if any, is not whitespace. -/
def headNotWS : List Char -> Bool
  | [] => true
  | c :: _ => !c.isWhitespace

/-- The last character, if any, is not whitespace. -/
def lastNotWS (l : List Char) : Bool :=
  headNotWS l.reverse

/-- Whitespace-normalised text: collapsing and stripping it changes nothing.
This is the normal form `re.sub(r"\s+", " ", s).strip()` produces. -/
def normChars (l : List Char) : Bool :=
  allSpaceWS l && noAdjWS l && headNotWS l && lastNotWS l

/-! # Lemmas and claim theorems -/

/-! ## The streaming state machine (C1, C8) -/

/-- Shape of the event sequence produced by the generator loop: the chunks of
a processed prefix of the lines, in arrival order, then one terminal event. -/
theorem runLines_shape (mode : String) (facts : List String) (ls : List Line)
    (midFail : Bool) :
    ∃ (n : Nat) (terminal : StreamEvent),
      runLines mode facts ls midFail =
        ((ls.take n).filterMap lineChunk).map StreamEvent.chunk ++ [terminal] ∧
      (terminal = StreamEvent.doneEvent mode (facts.take 5) ∨
       terminal = StreamEvent.errorEvent fallbackAnswer mode) := by
  induction ls generalizing midFail with
  | nil =>
    cases midFail
    · exact ⟨0, _, rfl, Or.inl rfl⟩
    · exact ⟨0, _, rfl, Or.inr rfl⟩
  | cons l rest ih =>
    cases l with
    | empty =>
      obtain ⟨n, t, he, ht⟩ := ih midFail
      exact ⟨n + 1, t, by simpa [runLines, lineChunk] using he, ht⟩
    | malformed =>
      exact ⟨0, _, rfl, Or.inr rfl⟩
    | parsed c d =>
      cases d with
      | true =>
        refine ⟨1, _, ?_, Or.inl rfl⟩
        by_cases hc : c = "" <;> simp [runLines, lineChunk, hc]
      | false =>
        obtain ⟨n, t, he, ht⟩ := ih midFail
        refine ⟨n + 1, t, ?_, ht⟩
        by_cases hc : c = "" <;> simp [runLines, lineChunk, hc, he]

/-- C8: For every sequence of upstream stream lines (including failure at any
point), the stream produces zero or more chunk events, in the order the chunks
arrive, followed by exactly one terminal event — either one done event
carrying mode and facts_used, or one error event carrying mode — and never
both, and nothing after the terminal event. -/
theorem stream_event_order_spec (mode : String) (facts : List String)
    (input : StreamInput) :
    ∃ (n : Nat) (terminal : StreamEvent),
      event_generator mode facts input =
        (((inputLines input).take n).filterMap lineChunk).map StreamEvent.chunk
          ++ [terminal] ∧
      (∀ e ∈ (((inputLines input).take n).filterMap lineChunk).map
          StreamEvent.chunk, isTerminalEvent e = false) ∧
      isTerminalEvent terminal = true ∧
      (terminal = StreamEvent.doneEvent mode (facts.take 5) ∨
       terminal = StreamEvent.errorEvent fallbackAnswer mode) := by
  cases input with
  | connFail =>
    refine ⟨0, _, rfl, ?_, rfl, Or.inr rfl⟩
    intro e he
    simp [inputLines] at he
  | lines received midFail =>
    obtain ⟨n, t, he, ht⟩ := runLines_shape mode facts received midFail
    refine ⟨n, t, he, ?_, ?_, ht⟩
    · intro e he'
      obtain ⟨c, _, rfl⟩ := List.mem_map.mp he'
      rfl
    · rcases ht with h | h <;> simp [h, isTerminalEvent]

/-- C1 counterexample: a stream whose first line is unparsable; the code
emits the single error event and stops — the following parsable line is never
relayed, so the malformed line is treated as fatal rather than skipped. -/
theorem stream_malformed_counterexample :
    event_generator "playful" []
        (StreamInput.lines [Line.malformed, Line.parsed "hi" false] false) =
      [StreamEvent.errorEvent fallbackAnswer "playful"] ∧
    StreamEvent.chunk "hi" ∉
      event_generator "playful" []
        (StreamInput.lines [Line.malformed, Line.parsed "hi" false] false) := by
  exact ⟨rfl, by decide⟩

/-- C1 (amended): a line that cannot be parsed as JSON is fatal to an active
stream: the chunks of the preceding lines are emitted, then exactly one error
event, and nothing after it — the lines after the malformed one are never
read.  (Only falsy/empty lines are skipped.) -/
theorem stream_malformed_fatal (mode : String) (facts : List String)
    (pre post : List Line) (midFail : Bool)
    (h : ∀ l ∈ pre, keepsStreaming l = true) :
    event_generator mode facts
        (StreamInput.lines (pre ++ Line.malformed :: post) midFail) =
      (pre.filterMap lineChunk).map StreamEvent.chunk ++
        [StreamEvent.errorEvent fallbackAnswer mode] := by
  show runLines mode facts (pre ++ Line.malformed :: post) midFail = _
  induction pre with
  | nil => rfl
  | cons l rest ih =>
    have hl := h l (by simp)
    have hrest : ∀ x ∈ rest, keepsStreaming x = true := fun x hx => h x (by simp [hx])
    cases l with
    | empty => simpa [runLines, lineChunk] using ih hrest
    | malformed => simp [keepsStreaming] at hl
    | parsed c d =>
      have hd : d = false := by simpa [keepsStreaming] using hl
      subst hd
      by_cases hc : c = "" <;> simp [runLines, lineChunk, hc, ih hrest]

/-- Witness for `stream_malformed_fatal` at a concrete stream. -/
theorem stream_malformed_fatal_witness :
    (∀ l ∈ [Line.empty, Line.parsed "a" false], keepsStreaming l = true) ∧
    event_generator "playful" ["f"]
        (StreamInput.lines
          ([Line.empty, Line.parsed "a" false] ++
            Line.malformed :: [Line.parsed "b" false]) false) =
      ([Line.empty, Line.parsed "a" false].filterMap lineChunk).map
          StreamEvent.chunk ++
        [StreamEvent.errorEvent fallbackAnswer "playful"] :=
  ⟨by decide, stream_malformed_fatal "playful" ["f"] _ _ false (by decide)⟩

/-! ## Mode classification (C5) -/

/-- C5: classify is total; any text containing a high-risk keyword (after
lowercasing) classifies as high_risk regardless of sensitive keywords; a text
with a sensitive but no high-risk keyword classifies as serious; anything
else (including empty or whitespace-only text) classifies as playful. -/
theorem detect_mode_spec (t : String) :
    ((∃ kw ∈ HIGH_RISK_KEYWORDS,
        containsKw (t.toList.map Char.toLower) kw.toList = true) →
      detect_mode t = "high_risk") ∧
    ((¬ ∃ kw ∈ HIGH_RISK_KEYWORDS,
        containsKw (t.toList.map Char.toLower) kw.toList = true) →
      (∃ kw ∈ SENSITIVE_KEYWORDS,
        containsKw (t.toList.map Char.toLower) kw.toList = true) →
      detect_mode t = "serious") ∧
    ((¬ ∃ kw ∈ HIGH_RISK_KEYWORDS,
        containsKw (t.toList.map Char.toLower) kw.toList = true) →
      (¬ ∃ kw ∈ SENSITIVE_KEYWORDS,
        containsKw (t.toList.map Char.toLower) kw.toList = true) →
      detect_mode t = "playful") := by
  refine ⟨fun h => ?_, fun h1 h2 => ?_, fun h1 h2 => ?_⟩
  · have hb : HIGH_RISK_KEYWORDS.any
        (fun kw => containsKw (t.toList.map Char.toLower) kw.toList) = true :=
      List.any_eq_true.mpr h
    simp only [detect_mode]
    rw [hb]
    rfl
  · have hb1 : HIGH_RISK_KEYWORDS.any
        (fun kw => containsKw (t.toList.map Char.toLower) kw.toList) = false :=
      Bool.eq_false_iff.mpr (fun hc => h1 (List.any_eq_true.mp hc))
    have hb2 : SENSITIVE_KEYWORDS.any
        (fun kw => containsKw (t.toList.map Char.toLower) kw.toList) = true :=
      List.any_eq_true.mpr h2
    simp only [detect_mode]
    rw [hb1, hb2]
    rfl
  · have hb1 : HIGH_RISK_KEYWORDS.any
        (fun kw => containsKw (t.toList.map Char.toLower) kw.toList) = false :=
      Bool.eq_false_iff.mpr (fun hc => h1 (List.any_eq_true.mp hc))
    have hb2 : SENSITIVE_KEYWORDS.any
        (fun kw => containsKw (t.toList.map Char.toLower) kw.toList) = false :=
      Bool.eq_false_iff.mpr (fun hc => h2 (List.any_eq_true.mp hc))
    simp only [detect_mode]
    rw [hb1, hb2]
    rfl

/-- Witness for `detect_mode_spec`: the three scenarios of the specification
(a mixed-case high-risk phrase that also contains a sensitive keyword, a
sensitive text, and a harmless text). -/
theorem detect_mode_spec_witness :
    detect_mode "Ik wil DOOD, heb angst" = "high_risk" ∧
    detect_mode "ik heb angst voor examens" = "serious" ∧
    detect_mode "ben je een robotje?" = "playful" :=
  ⟨(detect_mode_spec "Ik wil DOOD, heb angst").1 (by decide),
   (detect_mode_spec "ik heb angst voor examens").2.1 (by decide) (by decide),
   (detect_mode_spec "ben je een robotje?").2.2 (by decide) (by decide)⟩

/-! ## Chat orchestration (C7, C10) -/

/-- C7: when the upstream call fails on the non-stream path, the chat
operation returns the same mode and the same facts_used as the success path
would — the first at-most-5 entries of the ranked fact list — with the fixed
localized fallback answer and a 503 service-unavailable status. -/
theorem chat_failure_spec (req : ChatRequest) (store : StoreFile)
    (content : String) :
    (chat req store UpstreamOutcome.failure).mode =
      (chat req store (UpstreamOutcome.ok content)).mode ∧
    (chat req store UpstreamOutcome.failure).facts_used =
      (chat req store (UpstreamOutcome.ok content)).facts_used ∧
    (chat req store UpstreamOutcome.failure).facts_used =
      (retrieve_facts req.user_text store).take 5 ∧
    (chat req store UpstreamOutcome.failure).answer = fallbackAnswer ∧
    (chat req store UpstreamOutcome.failure).status = 503 :=
  ⟨rfl, rfl, rfl, rfl, rfl⟩

/-- C10: the non-stream message list is the system prompt, then exactly the
most recent 12 history turns (all of them when fewer), each with its role
kept when it is exactly `"assistant"` and coerced to `"user"` otherwise, then
the current user turn. -/
theorem chat_messages_spec (system_prompt : String) (req : ChatRequest) :
    ∃ mid : List Message,
      chatMessages system_prompt req =
        Message.mk "system" system_prompt ::
          (mid ++ [Message.mk "user" req.user_text]) ∧
      mid.length = min 12 req.history.length ∧
      ∀ i, i < min 12 req.history.length →
        ∃ src : HistoryItem,
          req.history[req.history.length - min 12 req.history.length + i]? =
            some src ∧
          mid[i]? = some (Message.mk
            (if src.role = "assistant" then "assistant" else "user")
            src.content) := by
  refine ⟨_, rfl, ?_, ?_⟩
  · rw [List.length_map, List.length_drop]
    omega
  · intro i hi
    have hidx : req.history.length - min 12 req.history.length + i <
        req.history.length := by omega
    have hk : req.history.length - 12 =
        req.history.length - min 12 req.history.length := by omega
    refine ⟨req.history.get ⟨_, hidx⟩, ?_, ?_⟩
    · exact List.getElem?_eq_getElem hidx
    · rw [List.getElem?_map, List.getElem?_drop, hk,
        List.getElem?_eq_getElem hidx]
      rfl

/-- Witness for `chat_messages_spec`: a concrete request with a
non-`assistant` role coerced to `user`. -/
theorem chat_messages_spec_witness :
    (1 : Nat) < min 12 (ChatRequest.mk "hoi"
      [HistoryItem.mk "assistant" "dag", HistoryItem.mk "tool" "x"]
      none).history.length ∧
    ∃ mid : List Message,
      chatMessages "sys" (ChatRequest.mk "hoi"
          [HistoryItem.mk "assistant" "dag", HistoryItem.mk "tool" "x"] none) =
        Message.mk "system" "sys" :: (mid ++ [Message.mk "user" "hoi"]) ∧
      mid.length = min 12 (ChatRequest.mk "hoi"
        [HistoryItem.mk "assistant" "dag", HistoryItem.mk "tool" "x"]
        none).history.length ∧
      ∀ i, i < min 12 (ChatRequest.mk "hoi"
          [HistoryItem.mk "assistant" "dag", HistoryItem.mk "tool" "x"]
          none).history.length →
        ∃ src : HistoryItem,
          (ChatRequest.mk "hoi"
            [HistoryItem.mk "assistant" "dag", HistoryItem.mk "tool" "x"]
            none).history[(ChatRequest.mk "hoi"
              [HistoryItem.mk "assistant" "dag", HistoryItem.mk "tool" "x"]
              none).history.length - min 12 (ChatRequest.mk "hoi"
              [HistoryItem.mk "assistant" "dag", HistoryItem.mk "tool" "x"]
              none).history.length + i]? = some src ∧
          mid[i]? = some (Message.mk
            (if src.role = "assistant" then "assistant" else "user")
            src.content) :=
  ⟨by decide, chat_messages_spec "sys" (ChatRequest.mk "hoi"
    [HistoryItem.mk "assistant" "dag", HistoryItem.mk "tool" "x"] none)⟩

/-! ## Retrieval on empty queries and faulty stores (C6, C9) -/

/-- C9: a query with no word characters tokenizes to nothing, so no fact can
have positive overlap and retrieval returns the empty sequence. -/
theorem retrieve_facts_empty_query (query : String) (store : StoreFile)
    (h : tokenize query = []) : retrieve_facts query store = [] := by
  cases store with
  | missing => rfl
  | corrupt => rfl
  | parsed data =>
    show rankFacts query (extractItems data) = []
    have hscored : scoredOf query (extractItems data) = [] := by
      simp only [scoredOf]
      rw [List.filter_eq_nil_iff]
      intro p hp
      rcases List.mem_map.mp hp with ⟨item, _, rfl⟩
      simp [overlapScore, h]
    simp [rankFacts, sortScored, hscored]

/-- Witness for `retrieve_facts_empty_query`: a query of punctuation and
whitespace only, against a non-empty store. -/
theorem retrieve_facts_empty_query_witness :
    tokenize "?!  ...  " = [] ∧
    retrieve_facts "?!  ...  "
      (StoreFile.parsed (Json.arr [Json.str "de kat slaapt"])) = [] :=
  ⟨by decide, retrieve_facts_empty_query _ _ (by decide)⟩

/-- C6 counterexample: a parsed document that is an array but not an array of
strings/records (it contains a number) does not yield an empty result — the
invalid element is skipped individually and the valid one is still returned. -/
theorem retrieve_mixed_array_counterexample :
    retrieve_facts "kat slaapt"
        (StoreFile.parsed (Json.arr [Json.num 5, Json.str "de kat slaapt veel"]))
      = ["de kat slaapt veel"] ∧
    retrieve_facts "kat slaapt"
        (StoreFile.parsed (Json.arr [Json.num 5, Json.str "de kat slaapt veel"]))
      ≠ [] := by
  exact ⟨by decide, by decide⟩

/-- C6 (amended): a missing store file, a file that fails to parse, or a
parsed document that is not a JSON array makes retrieve return the empty
sequence (and the embedding is total: no fault escapes the retriever);
array elements of invalid shape are skipped individually rather than
emptying the result. -/
theorem retrieve_faults_yield_empty (query : String) (data : Json)
    (h : data.isArr = false) :
    retrieve_facts query StoreFile.missing = [] ∧
    retrieve_facts query StoreFile.corrupt = [] ∧
    retrieve_facts query (StoreFile.parsed data) = [] := by
  refine ⟨rfl, rfl, ?_⟩
  cases data with
  | arr elems => simp [Json.isArr] at h
  | null => rfl
  | bool b => rfl
  | num n => rfl
  | str s => rfl
  | obj fields => rfl

/-- Witness for `retrieve_faults_yield_empty`: a top-level JSON object. -/
theorem retrieve_faults_yield_empty_witness :
    Json.isArr (Json.obj [("text", Json.str "de kat")]) = false ∧
    retrieve_facts "kat"
      (StoreFile.parsed (Json.obj [("text", Json.str "de kat")])) = [] :=
  ⟨rfl, (retrieve_faults_yield_empty "kat"
    (Json.obj [("text", Json.str "de kat")]) rfl).2.2⟩

/-! ## Ranking: stability, ordering and caps (C2) -/

/-- Inserting into the descending stable order commutes with filtering on a
fixed score: skipped elements have a strictly larger score. -/
theorem orderedInsert_filter_fst (k : Nat) (a : Nat × String)
    (l : List (Nat × String)) :
    (List.orderedInsert (fun a b => b.1 ≤ a.1) a l).filter
        (fun p => decide (p.1 = k)) =
      if a.1 = k then a :: l.filter (fun p => decide (p.1 = k))
      else l.filter (fun p => decide (p.1 = k)) := by
  induction l with
  | nil =>
    by_cases h : a.1 = k <;> simp [List.orderedInsert, h]
  | cons b t ih =>
    simp only [List.orderedInsert]
    by_cases hr : b.1 ≤ a.1
    · rw [if_pos hr]
      by_cases ha : a.1 = k <;> simp [List.filter_cons, ha]
    · rw [if_neg hr]
      by_cases ha : a.1 = k
      · have hb : ¬ b.1 = k := by omega
        simp [List.filter_cons, ha, hb, ih]
      · by_cases hb : b.1 = k <;> simp [List.filter_cons, ha, hb, ih]

/-- Stability of the model of `scored.sort(key=..., reverse=True)`: the
entries of any fixed score keep their original relative order. -/
theorem sortScored_filter_fst (k : Nat) (l : List (Nat × String)) :
    (sortScored l).filter (fun p => decide (p.1 = k)) =
      l.filter (fun p => decide (p.1 = k)) := by
  induction l with
  | nil => rfl
  | cons a t ih =>
    show (List.orderedInsert _ a (List.insertionSort _ t)).filter _ = _
    rw [orderedInsert_filter_fst]
    by_cases h : a.1 = k <;> simp [List.filter_cons, h] <;> exact ih

/-- The sort of server.py line 92 yields non-increasing scores. -/
theorem sortScored_pairwise (l : List (Nat × String)) :
    List.Pairwise (fun a b : Nat × String => b.1 ≤ a.1) (sortScored l) := by
  haveI : IsTotal (Nat × String) (fun a b => b.1 ≤ a.1) :=
    ⟨fun a b => le_total b.1 a.1⟩
  haveI : IsTrans (Nat × String) (fun a b => b.1 ≤ a.1) :=
    ⟨fun a b c h1 h2 => le_trans h2 h1⟩
  exact List.sorted_insertionSort _ l

/-- Sorting permutes, so sorted entries come from the scored list. -/
theorem sortScored_mem (l : List (Nat × String)) :
    ∀ p ∈ sortScored l, p ∈ l :=
  fun p hp => (List.perm_insertionSort _ l).mem_iff.mp hp

/-- Every scored entry carries its own overlap and has positive overlap. -/
theorem scoredOf_mem (query : String) (items : List String) :
    ∀ p ∈ scoredOf query items, p.1 = overlapScore query p.2 ∧ 0 < p.1 := by
  intro p hp
  have hp' := List.mem_filter.mp hp
  rcases List.mem_map.mp hp'.1 with ⟨item, _, rfl⟩
  exact ⟨rfl, by simpa using hp'.2⟩

/-- Mapping preserves initial segments. -/
theorem isInitialSegment_map {α β : Type} (f : α → β) {a b : List α}
    (h : isInitialSegment a b) : isInitialSegment (a.map f) (b.map f) := by
  obtain ⟨t, ht⟩ := h
  exact ⟨t.map f, by rw [← List.map_append, ht]⟩

/-- Filtering a `take` yields an initial segment of the full filter. -/
theorem filter_take_initial {α : Type} (p : α → Bool) (n : Nat) (l : List α) :
    isInitialSegment ((l.take n).filter p) (l.filter p) :=
  ⟨(l.drop n).filter p, by rw [← List.filter_append, List.take_append_drop]⟩

/-- The ranking core returns at most 8 items, each with positive overlap, in
non-increasing overlap order, and ties keep the item order. -/
theorem rankFacts_spec (query : String) (items : List String) :
    (rankFacts query items).length ≤ 8 ∧
    (∀ f ∈ rankFacts query items, 0 < overlapScore query f) ∧
    List.Pairwise
      (fun a b => overlapScore query b ≤ overlapScore query a)
      (rankFacts query items) ∧
    ∀ k, 0 < k →
      isInitialSegment
        ((rankFacts query items).filter
          (fun f => decide (overlapScore query f = k)))
        (items.filter (fun f => decide (overlapScore query f = k))) := by
  refine ⟨?_, ?_, ?_, ?_⟩
  · rw [rankFacts, List.length_map, List.length_take]
    exact min_le_left _ _
  · intro f hf
    rcases List.mem_map.mp hf with ⟨p, hp, rfl⟩
    have hmem : p ∈ scoredOf query items :=
      sortScored_mem _ _ ((List.take_sublist 8 _).subset hp)
    have := scoredOf_mem query items p hmem
    omega
  · have hp := sortScored_pairwise (scoredOf query items)
    have hp8 := List.Pairwise.sublist (List.take_sublist 8 _) hp
    rw [rankFacts]
    rw [List.pairwise_map]
    refine hp8.imp_of_mem ?_
    intro a b ha hb hab
    have hma : a ∈ scoredOf query items :=
      sortScored_mem _ _ ((List.take_sublist 8 _).subset ha)
    have hmb : b ∈ scoredOf query items :=
      sortScored_mem _ _ ((List.take_sublist 8 _).subset hb)
    have h1 := (scoredOf_mem query items a hma).1
    have h2 := (scoredOf_mem query items b hmb).1
    omega
  · intro k hk
    have h1 : (rankFacts query items).filter
        (fun f => decide (overlapScore query f = k)) =
        (((sortScored (scoredOf query items)).take 8).filter
          (fun p => decide (p.1 = k))).map Prod.snd := by
      rw [rankFacts, List.filter_map]
      congr 1
      apply List.filter_congr
      intro p hp
      have hmem : p ∈ scoredOf query items :=
        sortScored_mem _ _ ((List.take_sublist 8 _).subset hp)
      have := (scoredOf_mem query items p hmem).1
      simp only [Function.comp_apply]
      rw [← this]
    have h2 : (scoredOf query items).filter (fun p => decide (p.1 = k)) =
        (items.filter (fun f => decide (overlapScore query f = k))).map
          (fun item => (overlapScore query item, item)) := by
      rw [scoredOf, List.filter_filter]
      have heq : ∀ p : Nat × String,
          (decide (p.1 = k) && decide (0 < p.1)) = decide (p.1 = k) := by
        intro p
        by_cases h : p.1 = k
        · simp [h, hk]
        · simp [h]
      rw [List.filter_congr (fun p _ => heq p), List.filter_map]
      rfl
    rw [h1]
    have h3 := isInitialSegment_map Prod.snd
      (filter_take_initial (fun p : Nat × String => decide (p.1 = k)) 8
        (sortScored (scoredOf query items)))
    rw [sortScored_filter_fst, h2] at h3
    have h4 : ((items.filter
        (fun f => decide (overlapScore query f = k))).map
          (fun item => (overlapScore query item, item))).map Prod.snd =
        items.filter (fun f => decide (overlapScore query f = k)) := by
      rw [List.map_map]
      exact List.map_id _
    rw [h4] at h3
    exact h3

/-- C2: retrieve returns at most 8 entries, every returned entry has positive
token-set overlap with the query, the entries are non-increasing by overlap,
and entries of equal overlap keep their relative order from the store. -/
theorem retrieve_facts_ranked_spec (query : String) (store : StoreFile) :
    (retrieve_facts query store).length ≤ 8 ∧
    (∀ f ∈ retrieve_facts query store, 0 < overlapScore query f) ∧
    List.Pairwise
      (fun a b => overlapScore query b ≤ overlapScore query a)
      (retrieve_facts query store) ∧
    ∀ k, 0 < k →
      isInitialSegment
        ((retrieve_facts query store).filter
          (fun f => decide (overlapScore query f = k)))
        ((storeItems store).filter
          (fun f => decide (overlapScore query f = k))) := by
  cases store with
  | missing =>
    exact ⟨by simp [retrieve_facts], by simp [retrieve_facts],
      by simp [retrieve_facts], fun k _ => ⟨[], by simp [retrieve_facts, storeItems]⟩⟩
  | corrupt =>
    exact ⟨by simp [retrieve_facts], by simp [retrieve_facts],
      by simp [retrieve_facts], fun k _ => ⟨[], by simp [retrieve_facts, storeItems]⟩⟩
  | parsed data =>
    exact rankFacts_spec query (extractItems data)

/-- Witness for `retrieve_facts_ranked_spec`: the tie-order of the
overlap-1 facts of a concrete store. -/
theorem retrieve_facts_ranked_spec_witness :
    (0 : Nat) < 1 ∧
    isInitialSegment
      ((retrieve_facts "kat slaapt hond" (StoreFile.parsed (Json.arr
          [Json.str "de hond blaft",
           Json.obj [("text", Json.str "de kat slaapt veel")],
           Json.str "de kat"]))).filter
        (fun f => decide (overlapScore "kat slaapt hond" f = 1)))
      ((storeItems (StoreFile.parsed (Json.arr
          [Json.str "de hond blaft",
           Json.obj [("text", Json.str "de kat slaapt veel")],
           Json.str "de kat"]))).filter
        (fun f => decide (overlapScore "kat slaapt hond" f = 1))) :=
  ⟨by decide,
   (retrieve_facts_ranked_spec "kat slaapt hond" (StoreFile.parsed (Json.arr
      [Json.str "de hond blaft",
       Json.obj [("text", Json.str "de kat slaapt veel")],
       Json.str "de kat"]))).2.2.2 1 (by decide)⟩

/-! ## Adjacent-pair predicates: closure properties -/

theorem adjOK_tail {bad : Char → Char → Bool} {c : Char} {l : List Char}
    (h : adjOK bad (c :: l) = true) : adjOK bad l = true := by
  cases l with
  | nil => rfl
  | cons b t =>
    simp only [adjOK, Bool.and_eq_true] at h
    exact h.2

theorem adjOK_pair {bad : Char → Char → Bool} {a b : Char} {t : List Char}
    (h : adjOK bad (a :: b :: t) = true) : bad a b = false := by
  simp only [adjOK, Bool.and_eq_true] at h
  simpa using h.1

theorem adjOK_cons {bad : Char → Char → Bool} {c : Char} {l : List Char}
    (h : adjOK bad l = true)
    (hc : ∀ b, l.head? = some b → bad c b = false) :
    adjOK bad (c :: l) = true := by
  cases l with
  | nil => rfl
  | cons b t =>
    simp only [adjOK, Bool.and_eq_true]
    exact ⟨by simp [hc b rfl], h⟩

theorem adjOK_append_right {bad : Char → Char → Bool} {x y : List Char}
    (h : adjOK bad (x ++ y) = true) : adjOK bad y = true := by
  induction x with
  | nil => exact h
  | cons c t ih => exact ih (adjOK_tail h)

theorem adjOK_append_left {bad : Char → Char → Bool} {x y : List Char}
    (h : adjOK bad (x ++ y) = true) : adjOK bad x = true := by
  induction x with
  | nil => rfl
  | cons c t ih =>
    cases t with
    | nil => rfl
    | cons d u =>
      have h' := ih (adjOK_tail h)
      have hp : bad c d = false := adjOK_pair h
      simp only [adjOK, Bool.and_eq_true]
      exact ⟨by simp [hp], h'⟩

theorem adjOK_append {bad : Char → Char → Bool} {y : List Char}
    (hy : adjOK bad y = true) :
    ∀ x : List Char, adjOK bad x = true →
      (∀ a b, x.getLast? = some a → y.head? = some b → bad a b = false) →
      adjOK bad (x ++ y) = true := by
  intro x
  induction x with
  | nil => intro _ _; simpa using hy
  | cons c t ih =>
    intro hx hj
    cases t with
    | nil => exact adjOK_cons hy (fun b hb => hj c b rfl hb)
    | cons d u =>
      have hx' : adjOK bad (d :: u) = true := adjOK_tail hx
      have hj' : ∀ a b, (d :: u).getLast? = some a → y.head? = some b →
          bad a b = false := by
        intro a b ha hb
        exact hj a b (by rw [List.getLast?_cons_cons]; exact ha) hb
      have hres := ih hx' hj'
      show adjOK bad (c :: (d :: u ++ y)) = true
      apply adjOK_cons hres
      intro b hb
      have hb' : d = b := by simpa using hb
      subst hb'
      exact adjOK_pair hx

theorem adjOK_snoc {bad : Char → Char → Bool} {x : List Char} {c : Char}
    (hx : adjOK bad x = true)
    (hj : ∀ a, x.getLast? = some a → bad a c = false) :
    adjOK bad (x ++ [c]) = true := by
  apply adjOK_append (by rfl) x hx
  intro a b ha hb
  have hb' : c = b := by simpa using hb
  subst hb'
  exact hj a ha

theorem adjOK_dropWhile {bad : Char → Char → Bool} (p : Char → Bool)
    {l : List Char} (h : adjOK bad l = true) :
    adjOK bad (l.dropWhile p) = true := by
  have hd := List.takeWhile_append_dropWhile (p := p) (l := l)
  apply adjOK_append_right (x := l.takeWhile p)
  rw [hd]
  exact h

/-! ## Right-strip decompositions -/

theorem rstripWS_append (l : List Char) :
    rstripWS l ++ (l.reverse.takeWhile Char.isWhitespace).reverse = l := by
  rw [rstripWS, ← List.reverse_append, List.takeWhile_append_dropWhile,
    List.reverse_reverse]

theorem rstripPunct_append (l : List Char) :
    rstripPunct l ++ (l.reverse.takeWhile isPunctChar).reverse = l := by
  rw [rstripPunct, ← List.reverse_append, List.takeWhile_append_dropWhile,
    List.reverse_reverse]

theorem adjOK_rstripWS {bad : Char → Char → Bool} {l : List Char}
    (h : adjOK bad l = true) : adjOK bad (rstripWS l) = true := by
  apply adjOK_append_left (y := (l.reverse.takeWhile Char.isWhitespace).reverse)
  rw [rstripWS_append]
  exact h

theorem adjOK_pyStrip {bad : Char → Char → Bool} {l : List Char}
    (h : adjOK bad l = true) : adjOK bad (pyStrip l) = true :=
  adjOK_rstripWS (adjOK_dropWhile _ h)

/-! ## Membership closure for `allSpaceWS` -/

theorem allSpaceWS_of_subset {l x : List Char} (hsub : ∀ c ∈ x, c ∈ l)
    (h : allSpaceWS l = true) : allSpaceWS x = true := by
  rw [allSpaceWS, List.all_eq_true] at h ⊢
  exact fun c hc => h c (hsub c hc)

theorem mem_rstripWS {c : Char} {l : List Char} (h : c ∈ rstripWS l) : c ∈ l := by
  rw [rstripWS] at h
  rw [List.mem_reverse] at h
  have := (List.dropWhile_sublist (p := Char.isWhitespace)
    (l := l.reverse)).subset h
  rwa [List.mem_reverse] at this

theorem mem_pyStrip {c : Char} {l : List Char} (h : c ∈ pyStrip l) : c ∈ l := by
  have h1 := mem_rstripWS h
  rw [lstripWS] at h1
  exact (List.dropWhile_sublist (p := Char.isWhitespace) (l := l)).subset h1

/-! ## Strip as identity on stripped text -/

theorem dropWhileWS_eq_self {l : List Char} (h : headNotWS l = true) :
    l.dropWhile Char.isWhitespace = l := by
  cases l with
  | nil => rfl
  | cons c cs =>
    rw [headNotWS] at h
    rw [List.dropWhile_cons, if_neg (by simpa using h)]

theorem lstripWS_eq_self {l : List Char} (h : headNotWS l = true) :
    lstripWS l = l :=
  dropWhileWS_eq_self h

theorem rstripWS_eq_self {l : List Char} (h : lastNotWS l = true) :
    rstripWS l = l := by
  rw [rstripWS, dropWhileWS_eq_self h, List.reverse_reverse]

theorem pyStrip_eq_self {l : List Char} (h1 : headNotWS l = true)
    (h2 : lastNotWS l = true) : pyStrip l = l := by
  rw [pyStrip, lstripWS_eq_self h1, rstripWS_eq_self h2]

theorem headNotWS_dropWhileWS (l : List Char) :
    headNotWS (l.dropWhile Char.isWhitespace) = true := by
  induction l with
  | nil => rfl
  | cons c cs ih =>
    rw [List.dropWhile_cons]
    by_cases hw : c.isWhitespace
    · rw [if_pos hw]; exact ih
    · rw [if_neg hw, headNotWS]; simpa using hw

theorem headNotWS_append_left {x y : List Char}
    (h : headNotWS (x ++ y) = true) : headNotWS x = true := by
  cases x with
  | nil => rfl
  | cons c cs => exact h

theorem headNotWS_rstripWS {l : List Char} (h : headNotWS l = true) :
    headNotWS (rstripWS l) = true := by
  apply headNotWS_append_left (y := (l.reverse.takeWhile Char.isWhitespace).reverse)
  rw [rstripWS_append]
  exact h

theorem lastNotWS_rstripWS (l : List Char) : lastNotWS (rstripWS l) = true := by
  rw [lastNotWS, rstripWS, List.reverse_reverse]
  exact headNotWS_dropWhileWS _

theorem headNotWS_pyStrip (l : List Char) : headNotWS (pyStrip l) = true :=
  headNotWS_rstripWS (headNotWS_dropWhileWS l)

theorem lastNotWS_pyStrip (l : List Char) : lastNotWS (pyStrip l) = true :=
  lastNotWS_rstripWS _

/-! ## Properties of the whitespace collapser -/

theorem allSpaceWS_collapseGo (l : List Char) :
    ∀ b, allSpaceWS (collapseGo b l) = true := by
  induction l with
  | nil => intro b; cases b <;> rfl
  | cons c cs ih =>
    intro b
    by_cases hw : c.isWhitespace
    · cases b
      · rw [show collapseGo false (c :: cs) = ' ' :: collapseGo true cs by
          simp [collapseGo, hw]]
        rw [allSpaceWS, List.all_cons]
        simp only [Bool.and_eq_true]
        exact ⟨by decide, ih true⟩
      · rw [show collapseGo true (c :: cs) = collapseGo true cs by
          simp [collapseGo, hw]]
        exact ih true
    · cases b
      · rw [show collapseGo false (c :: cs) = c :: collapseGo false cs by
          simp [collapseGo, hw]]
        rw [allSpaceWS, List.all_cons]
        simp only [Bool.and_eq_true]
        exact ⟨by simp [hw], ih false⟩
      · rw [show collapseGo true (c :: cs) = c :: collapseGo false cs by
          simp [collapseGo, hw]]
        rw [allSpaceWS, List.all_cons]
        simp only [Bool.and_eq_true]
        exact ⟨by simp [hw], ih false⟩

theorem collapseGo_true_head (l : List Char) :
    ∀ c, (collapseGo true l).head? = some c → c.isWhitespace = false := by
  induction l with
  | nil => intro c h; simp [collapseGo] at h
  | cons d cs ih =>
    intro c h
    by_cases hw : d.isWhitespace
    · rw [show collapseGo true (d :: cs) = collapseGo true cs by
        simp [collapseGo, hw]] at h
      exact ih c h
    · rw [show collapseGo true (d :: cs) = d :: collapseGo false cs by
        simp [collapseGo, hw]] at h
      have : d = c := by simpa using h
      subst this
      simpa using hw

theorem noAdjWS_collapseGo (l : List Char) :
    ∀ b, noAdjWS (collapseGo b l) = true := by
  induction l with
  | nil => intro b; cases b <;> rfl
  | cons c cs ih =>
    intro b
    by_cases hw : c.isWhitespace
    · cases b
      · rw [show collapseGo false (c :: cs) = ' ' :: collapseGo true cs by
          simp [collapseGo, hw]]
        apply adjOK_cons (ih true)
        intro d hd
        simp [collapseGo_true_head cs d hd]
      · rw [show collapseGo true (c :: cs) = collapseGo true cs by
          simp [collapseGo, hw]]
        exact ih true
    · cases b
      · rw [show collapseGo false (c :: cs) = c :: collapseGo false cs by
          simp [collapseGo, hw]]
        apply adjOK_cons (ih false)
        intro d hd
        simp [hw]
      · rw [show collapseGo true (c :: cs) = c :: collapseGo false cs by
          simp [collapseGo, hw]]
        apply adjOK_cons (ih false)
        intro d hd
        simp [hw]

theorem collapseGo_true_eq_false {l : List Char} (h : headNotWS l = true) :
    collapseGo true l = collapseGo false l := by
  cases l with
  | nil => rfl
  | cons c cs =>
    rw [headNotWS] at h
    have hw : c.isWhitespace = false := by simpa using h
    simp [collapseGo, hw]

theorem collapseGo_false_eq_self {l : List Char} (hsp : allSpaceWS l = true)
    (hadj : noAdjWS l = true) : collapseGo false l = l := by
  induction l with
  | nil => rfl
  | cons c cs ih =>
    have hsp' : allSpaceWS cs = true := by
      rw [allSpaceWS, List.all_cons, Bool.and_eq_true] at hsp
      exact hsp.2
    have hadj' : noAdjWS cs = true := adjOK_tail hadj
    by_cases hw : c.isWhitespace
    · have hc : c = ' ' := by
        rw [allSpaceWS, List.all_cons, Bool.and_eq_true] at hsp
        have := hsp.1
        rw [hw] at this
        simpa using this
      have hhead : headNotWS cs = true := by
        cases cs with
        | nil => rfl
        | cons d t =>
          have := adjOK_pair hadj
          rw [headNotWS]
          rw [hw] at this
          simpa using this
      rw [show collapseGo false (c :: cs) = ' ' :: collapseGo true cs by
        simp [collapseGo, hw]]
      rw [collapseGo_true_eq_false hhead, ih hsp' hadj', hc]
    · rw [show collapseGo false (c :: cs) = c :: collapseGo false cs by
        simp [collapseGo, hw]]
      rw [ih hsp' hadj']

/-! ## The clean stage produces and preserves normalised text -/

theorem normChars_clean (l : List Char) :
    normChars (pyStrip (pyCollapse l)) = true := by
  rw [normChars]
  simp only [Bool.and_eq_true]
  refine ⟨⟨⟨?_, ?_⟩, ?_⟩, ?_⟩
  · exact allSpaceWS_of_subset (fun c hc => mem_pyStrip hc)
      (allSpaceWS_collapseGo l false)
  · exact adjOK_pyStrip (noAdjWS_collapseGo l false)
  · exact headNotWS_pyStrip _
  · exact lastNotWS_pyStrip _

theorem normChars_parts {l : List Char} (h : normChars l = true) :
    allSpaceWS l = true ∧ noAdjWS l = true ∧ headNotWS l = true ∧
      lastNotWS l = true := by
  rw [normChars] at h
  simp only [Bool.and_eq_true] at h
  exact ⟨h.1.1.1, h.1.1.2, h.1.2, h.2⟩

theorem clean_eq_self {l : List Char} (h : normChars l = true) :
    pyStrip (pyCollapse l) = l := by
  obtain ⟨h1, h2, h3, h4⟩ := normChars_parts h
  rw [pyCollapse, collapseGo_false_eq_self h1 h2, pyStrip_eq_self h3 h4]

/-! ## Properties of the run splitter -/

theorem intercalate_cons_cons (s a b : List Char) (t : List (List Char)) :
    List.intercalate s (a :: b :: t) = a ++ s ++ List.intercalate s (b :: t) := by
  simp only [List.intercalate, List.intersperse, List.flatten_cons]
  rw [List.append_assoc]

theorem intercalate_single (a : List Char) :
    List.intercalate [' '] [a] = a := by
  simp [List.intercalate]

theorem runsGo_append_sep {p : Char → Bool} {d : Char} (hd : p d = false)
    (b : List Char) :
    ∀ (a cur : List Char),
      runsGo p cur (a ++ d :: b) = runsGo p cur a ++ runsGo p [] b := by
  intro a
  induction a with
  | nil =>
    intro cur
    show runsGo p cur (d :: b) = runsGo p cur [] ++ runsGo p [] b
    cases hc : cur.isEmpty <;>
      simp [runsGo, hd, hc]
  | cons c a' ih =>
    intro cur
    by_cases hp : p c
    · rw [show runsGo p cur ((c :: a') ++ d :: b) =
          runsGo p (c :: cur) (a' ++ d :: b) from by simp [runsGo, hp],
        show runsGo p cur (c :: a') = runsGo p (c :: cur) a' from by
          simp [runsGo, hp]]
      exact ih (c :: cur)
    · cases hc : cur.isEmpty
      · rw [show runsGo p cur ((c :: a') ++ d :: b) =
            cur.reverse :: runsGo p [] (a' ++ d :: b) from by
            simp [runsGo, hp, hc],
          show runsGo p cur (c :: a') = cur.reverse :: runsGo p [] a' from by
            simp [runsGo, hp, hc]]
        rw [ih []]
        rfl
      · rw [show runsGo p cur ((c :: a') ++ d :: b) =
            runsGo p [] (a' ++ d :: b) from by simp [runsGo, hp, hc],
          show runsGo p cur (c :: a') = runsGo p [] a' from by
            simp [runsGo, hp, hc]]
        exact ih []

theorem runsGo_nil_of_sep {p : Char → Bool} :
    ∀ t : List Char, (∀ c ∈ t, p c = false) → runsGo p [] t = [] := by
  intro t
  induction t with
  | nil => intro _; rfl
  | cons c cs ih =>
    intro h
    have hc := h c (by simp)
    rw [show runsGo p [] (c :: cs) = runsGo p [] cs from by simp [runsGo, hc]]
    exact ih (fun x hx => h x (by simp [hx]))

theorem runsGo_append_sepAll {p : Char → Bool} {t : List Char}
    (ht : ∀ c ∈ t, p c = false) (a cur : List Char) :
    runsGo p cur (a ++ t) = runsGo p cur a := by
  cases t with
  | nil => rw [List.append_nil]
  | cons d t' =>
    have hd := ht d (by simp)
    rw [runsGo_append_sep hd t' a cur,
      runsGo_nil_of_sep t' (fun x hx => ht x (by simp [hx])),
      List.append_nil]

theorem runsGo_sepAll_append {p : Char → Bool} :
    ∀ {t : List Char}, (∀ c ∈ t, p c = false) → ∀ a : List Char,
      runsGo p [] (t ++ a) = runsGo p [] a := by
  intro t
  induction t with
  | nil => intro _ a; rfl
  | cons c cs ih =>
    intro h a
    have hc := h c (by simp)
    rw [show runsGo p [] ((c :: cs) ++ a) = runsGo p [] (cs ++ a) from by
      simp [runsGo, hc]]
    exact ih (fun x hx => h x (by simp [hx])) a

theorem runsGo_all_p {p : Char → Bool} :
    ∀ (w : List Char), (∀ c ∈ w, p c = true) → ∀ (cur rest : List Char),
      runsGo p cur (w ++ rest) = runsGo p (w.reverse ++ cur) rest := by
  intro w
  induction w with
  | nil => intro _ cur rest; rfl
  | cons c w' ih =>
    intro hw cur rest
    have hc := hw c (by simp)
    rw [show runsGo p cur ((c :: w') ++ rest) =
        runsGo p (c :: cur) (w' ++ rest) from by simp [runsGo, hc]]
    rw [ih (fun x hx => hw x (by simp [hx])) (c :: cur) rest]
    rw [List.reverse_cons, List.append_assoc]
    rfl

theorem runsGo_single_word {p : Char → Bool} {w : List Char} (hne : w ≠ [])
    (hw : ∀ c ∈ w, p c = true) : runsGo p [] w = [w] := by
  have h1 : runsGo p [] (w ++ []) = runsGo p (w.reverse ++ []) [] :=
    runsGo_all_p w hw [] []
  rw [List.append_nil, List.append_nil] at h1
  rw [h1]
  have hne' : w.reverse.isEmpty = false := by
    cases hw : w.reverse with
    | nil => exact absurd (by simpa using congrArg List.reverse hw) hne
    | cons x xs => rfl
  rw [show runsGo p w.reverse [] =
      if w.reverse.isEmpty then [] else [w.reverse.reverse] from rfl,
    hne', if_neg (by simp), List.reverse_reverse]

theorem runsGo_intercalate {p : Char → Bool} (hsp : p ' ' = false) :
    ∀ ss : List (List Char),
      runsGo p [] (List.intercalate [' '] ss) =
        (ss.map (runsGo p [])).flatten := by
  intro ss
  induction ss with
  | nil => rfl
  | cons s t ih =>
    cases t with
    | nil =>
      rw [intercalate_single]
      simp
    | cons b u =>
      rw [intercalate_cons_cons, List.append_assoc]
      rw [show ([' '] ++ List.intercalate [' '] (b :: u)) =
        ' ' :: List.intercalate [' '] (b :: u) from rfl]
      rw [runsGo_append_sep hsp _ s []]
      rw [ih]
      simp

theorem runsGo_mem {p : Char → Bool} :
    ∀ (l cur : List Char), (∀ c ∈ cur, p c = true) →
      ∀ w ∈ runsGo p cur l, w ≠ [] ∧ ∀ c ∈ w, p c = true := by
  intro l
  induction l with
  | nil =>
    intro cur hcur w hwmem
    by_cases hc : cur.isEmpty
    · rw [show runsGo p cur [] = [] from by simp [runsGo, hc]] at hwmem
      simp at hwmem
    · rw [show runsGo p cur [] = [cur.reverse] from by
        simp [runsGo]; simpa using hc] at hwmem
      have hw : w = cur.reverse := by simpa using hwmem
      subst hw
      refine ⟨?_, fun c hc' => hcur c (by simpa using hc')⟩
      intro hrev
      have : cur = [] := by simpa using congrArg List.reverse hrev
      rw [this] at hc
      exact hc rfl
  | cons c cs ih =>
    intro cur hcur w hwmem
    by_cases hp : p c
    · rw [show runsGo p cur (c :: cs) = runsGo p (c :: cur) cs from by
        simp [runsGo, hp]] at hwmem
      refine ih (c :: cur) ?_ w hwmem
      intro x hx
      rcases List.mem_cons.mp hx with h | h
      · rw [h]; exact hp
      · exact hcur x h
    · cases hc : cur.isEmpty
      · rw [show runsGo p cur (c :: cs) = cur.reverse :: runsGo p [] cs from by
          simp [runsGo, hp, hc]] at hwmem
        rcases List.mem_cons.mp hwmem with h | h
        · subst h
          refine ⟨?_, fun x hx => hcur x (by simpa using hx)⟩
          intro hrev
          have : cur = [] := by simpa using congrArg List.reverse hrev
          rw [this] at hc
          simp at hc
        · exact ih [] (by simp) w h
      · rw [show runsGo p cur (c :: cs) = runsGo p [] cs from by
          simp [runsGo, hp, hc]] at hwmem
        exact ih [] (by simp) w hwmem

/-! ## Word lists of normalised and rebuilt text -/

theorem wordsOf_append_ws {d : Char} (hd : d.isWhitespace = true)
    (a b : List Char) : wordsOf (a ++ d :: b) = wordsOf a ++ wordsOf b := by
  rw [wordsOf, wordsOf, wordsOf]
  exact runsGo_append_sep (by simp [hd]) b a []

theorem wordsOf_intercalate (ss : List (List Char)) :
    wordsOf (List.intercalate [' '] ss) = (ss.map wordsOf).flatten := by
  rw [wordsOf, runsGo_intercalate (by decide) ss]
  rfl

theorem wordsOf_ws_cons {d : Char} (hd : d.isWhitespace = true)
    (l : List Char) : wordsOf (d :: l) = wordsOf l := by
  rw [wordsOf, wordsOf,
    show runsGo (fun c => !c.isWhitespace) [] (d :: l) =
      runsGo (fun c => !c.isWhitespace) [] l from by simp [runsGo, hd]]

theorem wordsOf_lstripWS (l : List Char) :
    wordsOf (lstripWS l) = wordsOf l := by
  conv_rhs =>
    rw [← List.takeWhile_append_dropWhile (p := Char.isWhitespace) (l := l)]
  rw [wordsOf, wordsOf, lstripWS]
  rw [runsGo_sepAll_append
    (fun c hc => by simp [List.mem_takeWhile_imp hc])]

theorem wordsOf_rstripWS (l : List Char) :
    wordsOf (rstripWS l) = wordsOf l := by
  conv_rhs => rw [← rstripWS_append l]
  rw [wordsOf, wordsOf]
  rw [runsGo_append_sepAll
    (fun c hc => by
      have : c ∈ l.reverse.takeWhile Char.isWhitespace := by
        simpa using hc
      simp [List.mem_takeWhile_imp this])]

theorem wordsOf_pyStrip (l : List Char) : wordsOf (pyStrip l) = wordsOf l := by
  rw [pyStrip, wordsOf_rstripWS, wordsOf_lstripWS]

theorem wordsOf_collapseGo (l : List Char) :
    (∀ cur, runsGo (fun c => !c.isWhitespace) cur (collapseGo false l) =
      runsGo (fun c => !c.isWhitespace) cur l) ∧
    runsGo (fun c => !c.isWhitespace) [] (collapseGo true l) =
      runsGo (fun c => !c.isWhitespace) [] l := by
  induction l with
  | nil => exact ⟨fun cur => rfl, rfl⟩
  | cons c cs ih =>
    constructor
    · intro cur
      by_cases hw : c.isWhitespace
      · rw [show collapseGo false (c :: cs) = ' ' :: collapseGo true cs from by
          simp [collapseGo, hw]]
        cases hc : cur.isEmpty
        · rw [show runsGo (fun c => !c.isWhitespace) cur
              (' ' :: collapseGo true cs) =
              cur.reverse :: runsGo (fun c => !c.isWhitespace) []
                (collapseGo true cs) from by simp [runsGo, hc],
            show runsGo (fun c => !c.isWhitespace) cur (c :: cs) =
              cur.reverse :: runsGo (fun c => !c.isWhitespace) [] cs from by
              simp [runsGo, hw, hc]]
          rw [ih.2]
        · rw [show runsGo (fun c => !c.isWhitespace) cur
              (' ' :: collapseGo true cs) =
              runsGo (fun c => !c.isWhitespace) [] (collapseGo true cs) from by
              simp [runsGo, hc],
            show runsGo (fun c => !c.isWhitespace) cur (c :: cs) =
              runsGo (fun c => !c.isWhitespace) [] cs from by
              simp [runsGo, hw, hc]]
          rw [ih.2]
      · rw [show collapseGo false (c :: cs) = c :: collapseGo false cs from by
          simp [collapseGo, hw]]
        rw [show runsGo (fun c => !c.isWhitespace) cur
            (c :: collapseGo false cs) =
            runsGo (fun c => !c.isWhitespace) (c :: cur)
              (collapseGo false cs) from by simp [runsGo, hw],
          show runsGo (fun c => !c.isWhitespace) cur (c :: cs) =
            runsGo (fun c => !c.isWhitespace) (c :: cur) cs from by
            simp [runsGo, hw]]
        exact ih.1 (c :: cur)
    · by_cases hw : c.isWhitespace
      · rw [show collapseGo true (c :: cs) = collapseGo true cs from by
          simp [collapseGo, hw]]
        rw [ih.2]
        rw [show runsGo (fun c => !c.isWhitespace) [] (c :: cs) =
          runsGo (fun c => !c.isWhitespace) [] cs from by simp [runsGo, hw]]
      · rw [show collapseGo true (c :: cs) = c :: collapseGo false cs from by
          simp [collapseGo, hw]]
        rw [show runsGo (fun c => !c.isWhitespace) []
            (c :: collapseGo false cs) =
            runsGo (fun c => !c.isWhitespace) [c] (collapseGo false cs) from by
            simp [runsGo, hw]]
        rw [ih.1 [c]]
        rw [show runsGo (fun c => !c.isWhitespace) [] (c :: cs) =
          runsGo (fun c => !c.isWhitespace) [c] cs from by simp [runsGo, hw]]

theorem wordsOf_pyCollapse (l : List Char) :
    wordsOf (pyCollapse l) = wordsOf l :=
  (wordsOf_collapseGo l).1 []

theorem wordsOf_clean (l : List Char) :
    wordsOf (pyStrip (pyCollapse l)) = wordsOf l := by
  rw [wordsOf_pyStrip, wordsOf_pyCollapse]

theorem wordsOf_mem {l : List Char} :
    ∀ w ∈ wordsOf l, w ≠ [] ∧ ∀ c ∈ w, c.isWhitespace = false := by
  intro w hw
  have := runsGo_mem (p := fun c => !c.isWhitespace) l [] (by simp) w hw
  exact ⟨this.1, fun c hc => by simpa using this.2 c hc⟩

theorem runsGo_length_word_indep {p : Char → Bool} :
    ∀ (a cur w₁ w₂ : List Char),
      w₁ ≠ [] → w₂ ≠ [] → (∀ c ∈ w₁, p c = true) → (∀ c ∈ w₂, p c = true) →
      (runsGo p cur (a ++ w₁)).length = (runsGo p cur (a ++ w₂)).length := by
  intro a
  induction a with
  | nil =>
    intro cur w₁ w₂ h1 h2 hp1 hp2
    rw [List.nil_append, List.nil_append]
    have e1 : runsGo p cur w₁ = runsGo p (w₁.reverse ++ cur) [] := by
      conv_lhs => rw [← List.append_nil w₁]
      exact runsGo_all_p w₁ hp1 cur []
    have e2 : runsGo p cur w₂ = runsGo p (w₂.reverse ++ cur) [] := by
      conv_lhs => rw [← List.append_nil w₂]
      exact runsGo_all_p w₂ hp2 cur []
    have ne1 : (w₁.reverse ++ cur).isEmpty = false := by
      cases hw : w₁.reverse ++ cur with
      | nil =>
        rcases List.append_eq_nil.mp hw with ⟨ha, _⟩
        exact absurd (by simpa using congrArg List.reverse ha) h1
      | cons x xs => rfl
    have ne2 : (w₂.reverse ++ cur).isEmpty = false := by
      cases hw : w₂.reverse ++ cur with
      | nil =>
        rcases List.append_eq_nil.mp hw with ⟨ha, _⟩
        exact absurd (by simpa using congrArg List.reverse ha) h2
      | cons x xs => rfl
    rw [e1, e2,
      show runsGo p (w₁.reverse ++ cur) [] =
        if (w₁.reverse ++ cur).isEmpty then [] else [(w₁.reverse ++ cur).reverse]
        from rfl,
      show runsGo p (w₂.reverse ++ cur) [] =
        if (w₂.reverse ++ cur).isEmpty then [] else [(w₂.reverse ++ cur).reverse]
        from rfl,
      ne1, ne2]
    rfl
  | cons c a' ih =>
    intro cur w₁ w₂ h1 h2 hp1 hp2
    by_cases hp : p c
    · rw [show runsGo p cur ((c :: a') ++ w₁) =
          runsGo p (c :: cur) (a' ++ w₁) from by simp [runsGo, hp],
        show runsGo p cur ((c :: a') ++ w₂) =
          runsGo p (c :: cur) (a' ++ w₂) from by simp [runsGo, hp]]
      exact ih (c :: cur) w₁ w₂ h1 h2 hp1 hp2
    · cases hc : cur.isEmpty
      · rw [show runsGo p cur ((c :: a') ++ w₁) =
            cur.reverse :: runsGo p [] (a' ++ w₁) from by simp [runsGo, hp, hc],
          show runsGo p cur ((c :: a') ++ w₂) =
            cur.reverse :: runsGo p [] (a' ++ w₂) from by simp [runsGo, hp, hc]]
        rw [List.length_cons, List.length_cons,
          ih [] w₁ w₂ h1 h2 hp1 hp2]
      · rw [show runsGo p cur ((c :: a') ++ w₁) =
            runsGo p [] (a' ++ w₁) from by simp [runsGo, hp, hc],
          show runsGo p cur ((c :: a') ++ w₂) =
            runsGo p [] (a' ++ w₂) from by simp [runsGo, hp, hc]]
        exact ih [] w₁ w₂ h1 h2 hp1 hp2

theorem getLast_not_ws {y : List Char} (hne : y ≠ [])
    (hlast : lastNotWS y = true) : (y.getLast hne).isWhitespace = false := by
  rw [lastNotWS] at hlast
  have hrev : y.reverse ≠ [] := by simpa using hne
  cases hy : y.reverse with
  | nil => exact absurd hy hrev
  | cons x xs =>
    have hx : x = y.getLast hne := by
      have h1 : y.reverse.head? = some x := by rw [hy]; rfl
      rw [List.head?_reverse] at h1
      have h2 : y.getLast? = some (y.getLast hne) := List.getLast?_eq_getLast y hne
      rw [h1] at h2
      exact (Option.some.injEq _ _ ▸ h2)
    rw [hy, headNotWS] at hlast
    rw [← hx]
    simpa using hlast

theorem wordsOf_length_append_dot {y : List Char} (hne : y ≠ [])
    (hlast : lastNotWS y = true) :
    (wordsOf (y ++ ['.'])).length = (wordsOf y).length := by
  have hy := List.dropLast_append_getLast hne
  have he : (y.getLast hne).isWhitespace = false := getLast_not_ws hne hlast
  rw [wordsOf, wordsOf]
  conv_lhs => rw [← hy]
  conv_rhs => rw [← hy]
  rw [List.append_assoc]
  rw [show [y.getLast hne] ++ ['.'] = [y.getLast hne, '.'] from rfl]
  exact runsGo_length_word_indep y.dropLast [] [y.getLast hne, '.']
    [y.getLast hne] (by simp) (by simp)
    (by
      intro c hc
      rcases List.mem_cons.mp hc with h | h
      · subst h; simp [he]
      · have : c = '.' := by simpa using h
        subst this; decide)
    (by
      intro c hc
      have : c = y.getLast hne := by simpa using hc
      subst this; simp [he])

/-! ## Properties of the sentence splitter -/

theorem adjOK_junction {bad : Char → Char → Bool} :
    ∀ (x : List Char) {y : List Char} {a b : Char},
      adjOK bad (x ++ y) = true → x.getLast? = some a → y.head? = some b →
      bad a b = false := by
  intro x
  induction x with
  | nil => intro y a b _ ha _; simp at ha
  | cons c t ih =>
    intro y a b h ha hb
    cases t with
    | nil =>
      have hac : c = a := by simpa using ha
      subst hac
      cases y with
      | nil => simp at hb
      | cons d u =>
        have hdb : d = b := by simpa using hb
        subst hdb
        exact adjOK_pair h
    | cons d u =>
      have ha' : (d :: u).getLast? = some a := by
        rwa [List.getLast?_cons_cons] at ha
      exact ih (adjOK_tail h) ha' hb

/-- Inside split-point-free text, the scanner never cuts at the next char. -/
theorem noSP_no_cut_cond {cur : List Char} {c : Char} {cs : List Char}
    (h : noSP (cur.reverse ++ c :: cs) = true) :
    (c.isWhitespace && endsTerm cur) = false := by
  cases hcur : cur with
  | nil => simp [endsTerm]
  | cons a t =>
    have hlast : (a :: t).reverse.getLast? = some a := by
      rw [List.getLast?_reverse]
      rfl
    rw [hcur] at h
    have h' : adjOK (fun a b => isTermChar a && b.isWhitespace)
        ((a :: t).reverse ++ c :: cs) = true := h
    have hpair : (isTermChar a && c.isWhitespace) = false :=
      adjOK_junction (a :: t).reverse h' hlast rfl
    rw [endsTerm]
    rw [Bool.and_comm]
    exact hpair

theorem sentGo_ne_nil : ∀ (l : List Char) (b : Bool) (cur : List Char),
    sentGo b cur l ≠ [] := by
  intro l
  induction l with
  | nil => intro b cur; cases b <;> simp [sentGo]
  | cons c cs ih =>
    intro b cur
    cases b
    · cases hsplit : (c.isWhitespace && endsTerm cur)
      · rw [show sentGo false cur (c :: cs) = sentGo false (c :: cur) cs from by
          simp [sentGo, hsplit]]
        exact ih false (c :: cur)
      · rw [show sentGo false cur (c :: cs) =
          cur.reverse :: sentGo true [] cs from by simp [sentGo, hsplit]]
        simp
    · cases hw : c.isWhitespace
      · rw [show sentGo true cur (c :: cs) = sentGo false (c :: cur) cs from by
          simp [sentGo, hw]]
        exact ih false (c :: cur)
      · rw [show sentGo true cur (c :: cs) = sentGo true cur cs from by
          simp [sentGo, hw]]
        exact ih true cur

theorem sentGo_words : ∀ (l : List Char) (b : Bool) (cur : List Char),
    (b = true → cur = []) →
    ((sentGo b cur l).map wordsOf).flatten = wordsOf (cur.reverse ++ l) := by
  intro l
  induction l with
  | nil =>
    intro b cur _
    cases b <;> simp [sentGo]
  | cons c cs ih =>
    intro b cur hb
    cases b
    · cases hsplit : (c.isWhitespace && endsTerm cur)
      · rw [show sentGo false cur (c :: cs) = sentGo false (c :: cur) cs from by
          simp [sentGo, hsplit]]
        rw [ih false (c :: cur) (by simp)]
        rw [List.reverse_cons, List.append_assoc]
        rfl
      · rw [show sentGo false cur (c :: cs) =
          cur.reverse :: sentGo true [] cs from by simp [sentGo, hsplit]]
        have hw : c.isWhitespace = true := by
          have h' := hsplit
          simp only [Bool.and_eq_true] at h'
          exact h'.1
        rw [List.map_cons, List.flatten_cons, ih true [] (fun _ => rfl)]
        rw [wordsOf_append_ws hw]
        rfl
    · have hcur : cur = [] := hb rfl
      subst hcur
      cases hw : c.isWhitespace
      · rw [show sentGo true [] (c :: cs) = sentGo false [c] cs from by
          simp [sentGo, hw]]
        exact ih false [c] (by simp)
      · rw [show sentGo true [] (c :: cs) = sentGo true [] cs from by
          simp [sentGo, hw]]
        rw [ih true [] (fun _ => rfl)]
        simp only [List.reverse_nil, List.nil_append]
        rw [wordsOf_ws_cons hw]

theorem sentGo_noSP : ∀ (l : List Char) (b : Bool) (cur : List Char),
    noSP cur.reverse = true → (b = true → cur = []) →
    ∀ piece ∈ sentGo b cur l, noSP piece = true := by
  intro l
  induction l with
  | nil =>
    intro b cur hcur _ piece hmem
    cases b <;>
    · have hp : piece = cur.reverse := by simpa [sentGo] using hmem
      subst hp
      exact hcur
  | cons c cs ih =>
    intro b cur hcur hb piece hmem
    cases b
    · cases hsplit : (c.isWhitespace && endsTerm cur)
      · rw [show sentGo false cur (c :: cs) = sentGo false (c :: cur) cs from by
          simp [sentGo, hsplit]] at hmem
        refine ih false (c :: cur) ?_ (by simp) piece hmem
        rw [List.reverse_cons]
        apply adjOK_snoc hcur
        intro a ha
        rw [List.getLast?_reverse] at ha
        cases hc : cur with
        | nil => subst hc; simp at ha
        | cons a0 t0 =>
          subst hc
          have haa : a0 = a := by simpa using ha
          subst haa
          rw [Bool.and_comm] at hsplit
          exact hsplit
      · rw [show sentGo false cur (c :: cs) =
          cur.reverse :: sentGo true [] cs from by simp [sentGo, hsplit]] at hmem
        rcases List.mem_cons.mp hmem with h | h
        · subst h; exact hcur
        · exact ih true [] (by rfl) (fun _ => rfl) piece h
    · have hcur0 : cur = [] := hb rfl
      subst hcur0
      cases hw : c.isWhitespace
      · rw [show sentGo true [] (c :: cs) = sentGo false [c] cs from by
          simp [sentGo, hw]] at hmem
        exact ih false [c] (by rfl) (by simp) piece hmem
      · rw [show sentGo true [] (c :: cs) = sentGo true [] cs from by
          simp [sentGo, hw]] at hmem
        exact ih true [] (by rfl) (fun _ => rfl) piece hmem

theorem sentGo_dropLast_term : ∀ (l : List Char) (b : Bool) (cur : List Char),
    ∀ piece ∈ (sentGo b cur l).dropLast,
      ∃ t, piece.getLast? = some t ∧ isTermChar t = true := by
  intro l
  induction l with
  | nil =>
    intro b cur piece hmem
    cases b <;> simp [sentGo] at hmem
  | cons c cs ih =>
    intro b cur piece hmem
    cases b
    · cases hsplit : (c.isWhitespace && endsTerm cur)
      · rw [show sentGo false cur (c :: cs) = sentGo false (c :: cur) cs from by
          simp [sentGo, hsplit]] at hmem
        exact ih false (c :: cur) piece hmem
      · rw [show sentGo false cur (c :: cs) =
          cur.reverse :: sentGo true [] cs from by simp [sentGo, hsplit]] at hmem
        have hterm : endsTerm cur = true := by
          have h' := hsplit
          simp only [Bool.and_eq_true] at h'
          exact h'.2
        cases hrest : sentGo true [] cs with
        | nil => exact absurd hrest (sentGo_ne_nil cs true [])
        | cons r rs =>
          rw [hrest, List.dropLast_cons₂] at hmem
          rcases List.mem_cons.mp hmem with h | h
          · subst h
            cases hc : cur with
            | nil => subst hc; exact absurd hterm (by decide)
            | cons a t =>
              subst hc
              refine ⟨a, ?_, ?_⟩
              · rw [List.getLast?_reverse]; rfl
              · exact hterm
          · rw [← hrest] at h
            exact ih true [] piece h
    · cases hw : c.isWhitespace
      · rw [show sentGo true cur (c :: cs) = sentGo false (c :: cur) cs from by
          simp [sentGo, hw]] at hmem
        exact ih false (c :: cur) piece hmem
      · rw [show sentGo true cur (c :: cs) = sentGo true cur cs from by
          simp [sentGo, hw]] at hmem
        exact ih true cur piece hmem

theorem sentGo_infix : ∀ (l : List Char) (b : Bool) (cur : List Char),
    (b = true → cur = []) →
    ∀ piece ∈ sentGo b cur l,
      ∃ pre post, pre ++ piece ++ post = cur.reverse ++ l := by
  intro l
  induction l with
  | nil =>
    intro b cur _ piece hmem
    have hp : piece = cur.reverse := by
      cases b <;> simpa [sentGo] using hmem
    subst hp
    exact ⟨[], [], by simp⟩
  | cons c cs ih =>
    intro b cur hb piece hmem
    cases b
    · cases hsplit : (c.isWhitespace && endsTerm cur)
      · rw [show sentGo false cur (c :: cs) = sentGo false (c :: cur) cs from by
          simp [sentGo, hsplit]] at hmem
        obtain ⟨pre, post, hp⟩ := ih false (c :: cur) (by simp) piece hmem
        refine ⟨pre, post, ?_⟩
        rw [hp, List.reverse_cons, List.append_assoc]
        rfl
      · rw [show sentGo false cur (c :: cs) =
          cur.reverse :: sentGo true [] cs from by simp [sentGo, hsplit]] at hmem
        rcases List.mem_cons.mp hmem with h | h
        · subst h
          exact ⟨[], c :: cs, by simp⟩
        · obtain ⟨pre, post, hp⟩ := ih true [] (fun _ => rfl) piece h
          simp only [List.reverse_nil, List.nil_append] at hp
          refine ⟨cur.reverse ++ [c] ++ pre, post, ?_⟩
          rw [← hp]
          simp [List.append_assoc]
    · have hcur0 : cur = [] := hb rfl
      subst hcur0
      cases hw : c.isWhitespace
      · rw [show sentGo true [] (c :: cs) = sentGo false [c] cs from by
          simp [sentGo, hw]] at hmem
        obtain ⟨pre, post, hp⟩ := ih false [c] (by simp) piece hmem
        exact ⟨pre, post, by rw [hp]; rfl⟩
      · rw [show sentGo true [] (c :: cs) = sentGo true [] cs from by
          simp [sentGo, hw]] at hmem
        obtain ⟨pre, post, hp⟩ := ih true [] (fun _ => rfl) piece hmem
        simp only [List.reverse_nil, List.nil_append] at hp
        refine ⟨c :: pre, post, ?_⟩
        simp only [List.reverse_nil, List.nil_append]
        rw [← hp]
        simp

theorem sentGo_no_cut : ∀ (rest cur : List Char),
    noSP (cur.reverse ++ rest) = true →
    sentGo false cur rest = [cur.reverse ++ rest] := by
  intro rest
  induction rest with
  | nil => intro cur _; simp [sentGo]
  | cons c cs ih =>
    intro cur h
    have hcond : (c.isWhitespace && endsTerm cur) = false := noSP_no_cut_cond h
    rw [show sentGo false cur (c :: cs) = sentGo false (c :: cur) cs from by
      simp [sentGo, hcond]]
    have h' : noSP ((c :: cur).reverse ++ cs) = true := by
      rw [List.reverse_cons, List.append_assoc]
      exact h
    rw [ih (c :: cur) h']
    rw [List.reverse_cons, List.append_assoc]
    rfl

theorem sentGo_cut_at_sep : ∀ (s cur rest : List Char),
    noSP (cur.reverse ++ s) = true →
    (∃ t, (cur.reverse ++ s).getLast? = some t ∧ isTermChar t = true) →
    sentGo false cur (s ++ ' ' :: rest) =
      (cur.reverse ++ s) :: sentGo true [] rest := by
  intro s
  induction s with
  | nil =>
    intro cur rest _ hterm
    obtain ⟨t, ht, htt⟩ := hterm
    rw [List.append_nil] at ht
    rw [List.getLast?_reverse] at ht
    cases hcur : cur with
    | nil => subst hcur; simp at ht
    | cons a tl =>
      subst hcur
      have hat : a = t := by simpa using ht
      subst hat
      rw [List.nil_append]
      rw [show sentGo false (a :: tl) (' ' :: rest) =
        (a :: tl).reverse :: sentGo true [] rest from by
        simp [sentGo, endsTerm, htt]]
      rw [List.append_nil]
  | cons c s' ih =>
    intro cur rest hnosp hterm
    have hcond : (c.isWhitespace && endsTerm cur) = false := noSP_no_cut_cond hnosp
    rw [show sentGo false cur ((c :: s') ++ ' ' :: rest) =
      sentGo false (c :: cur) (s' ++ ' ' :: rest) from by simp [sentGo, hcond]]
    have h1 : noSP ((c :: cur).reverse ++ s') = true := by
      rw [List.reverse_cons, List.append_assoc]
      exact hnosp
    have h2 : ∃ t, ((c :: cur).reverse ++ s').getLast? = some t ∧
        isTermChar t = true := by
      obtain ⟨t, ht, htt⟩ := hterm
      refine ⟨t, ?_, htt⟩
      rw [List.reverse_cons, List.append_assoc]
      exact ht
    rw [ih (c :: cur) rest h1 h2]
    rw [List.reverse_cons, List.append_assoc]
    rfl

theorem sentGo_true_eq_false {l : List Char} (h : headNotWS l = true) :
    sentGo true [] l = sentGo false [] l := by
  cases l with
  | nil => rfl
  | cons c cs =>
    rw [headNotWS] at h
    have hw : c.isWhitespace = false := by simpa using h
    rw [show sentGo true [] (c :: cs) = sentGo false [c] cs from by
        simp [sentGo, hw],
      show sentGo false [] (c :: cs) = sentGo false [c] cs from by
        simp [sentGo, hw, endsTerm]]

theorem sentGo_rejoin : ∀ ss : List (List Char), ss ≠ [] →
    (∀ s ∈ ss, s ≠ [] ∧ noSP s = true ∧ headNotWS s = true ∧
      ∃ t, s.getLast? = some t ∧ isTermChar t = true) →
    sentGo false [] (List.intercalate [' '] ss) = ss := by
  intro ss
  induction ss with
  | nil => intro h _; exact absurd rfl h
  | cons s t ih =>
    intro _ hprops
    obtain ⟨hs_ne, hs_nosp, hs_head, hs_term⟩ := hprops s (by simp)
    cases t with
    | nil =>
      rw [intercalate_single]
      rw [sentGo_no_cut s [] (by simpa using hs_nosp)]
      rfl
    | cons b u =>
      rw [intercalate_cons_cons, List.append_assoc]
      rw [show [' '] ++ List.intercalate [' '] (b :: u) =
        ' ' :: List.intercalate [' '] (b :: u) from rfl]
      rw [sentGo_cut_at_sep s [] _ (by simpa using hs_nosp)
        (by simpa using hs_term)]
      have hb := hprops b (by simp)
      have hhead : headNotWS (List.intercalate [' '] (b :: u)) = true := by
        cases u with
        | nil => rw [intercalate_single]; exact hb.2.2.1
        | cons x y =>
          rw [intercalate_cons_cons]
          cases hbb : b with
          | nil => exact absurd hbb hb.1
          | cons c0 cs0 =>
            have := hb.2.2.1
            rw [hbb] at this
            exact this
      rw [sentGo_true_eq_false hhead]
      rw [ih (by simp) (fun x hx => hprops x (by simp [hx]))]
      rfl

/-! ## Sentence lists of normalised text -/

theorem term_not_ws {t : Char} (h : isTermChar t = true) :
    t.isWhitespace = false := by
  rw [isTermChar] at h
  simp only [Bool.or_eq_true, beq_iff_eq] at h
  rcases h with (h | h) | h <;> subst h <;> decide

theorem headNotWS_head? {y : List Char} {d : Char} (hy : headNotWS y = true)
    (hd : y.head? = some d) : d.isWhitespace = false := by
  cases y with
  | nil => simp at hd
  | cons c cs =>
    have : c = d := by simpa using hd
    subst this
    rw [headNotWS] at hy
    simpa using hy

theorem lastNotWS_getLast? {y : List Char} {a : Char} (hy : lastNotWS y = true)
    (ha : y.getLast? = some a) : a.isWhitespace = false := by
  rw [lastNotWS] at hy
  rw [← List.head?_reverse] at ha
  exact headNotWS_head? hy ha

theorem headNotWS_append_ne {x : List Char} (y : List Char) (hx : x ≠ []) :
    headNotWS (x ++ y) = headNotWS x := by
  cases x with
  | nil => exact absurd rfl hx
  | cons c cs => rfl

theorem lastNotWS_append_ne (x : List Char) {y : List Char} (hy : y ≠ []) :
    lastNotWS (x ++ y) = lastNotWS y := by
  rw [lastNotWS, lastNotWS, List.reverse_append]
  exact headNotWS_append_ne x.reverse (by simpa using hy)

theorem lastNotWS_of_getLast {y : List Char} {t : Char}
    (hy : y.getLast? = some t) (ht : t.isWhitespace = false) :
    lastNotWS y = true := by
  rw [lastNotWS]
  rw [← List.head?_reverse] at hy
  cases hr : y.reverse with
  | nil => rw [hr] at hy; simp at hy
  | cons c cs =>
    rw [hr] at hy
    have : c = t := by simpa using hy
    subst this
    rw [headNotWS]
    simpa using ht

/-- Stripping keeps a non-whitespace final character (and non-emptiness). -/
theorem pyStrip_getLast {x : List Char} {t : Char} (hx : x.getLast? = some t)
    (ht : t.isWhitespace = false) :
    pyStrip x ≠ [] ∧ (pyStrip x).getLast? = some t := by
  have htx : t ∈ x := List.mem_of_mem_getLast? (by rw [hx]; rfl)
  have hlne : lstripWS x ≠ [] := by
    intro hnil
    rw [lstripWS] at hnil
    have := List.dropWhile_eq_nil_iff.mp hnil t htx
    rw [this] at ht
    simp at ht
  have hlast : (lstripWS x).getLast? = some t := by
    conv_lhs => rw [lstripWS]
    have hsplit := List.takeWhile_append_dropWhile
      (p := Char.isWhitespace) (l := x)
    have := List.getLast?_append_of_ne_nil
      (x.takeWhile Char.isWhitespace) hlne
    rw [lstripWS] at this
    rw [hsplit] at this
    rw [← this, hx]
  have hlnw : lastNotWS (lstripWS x) = true := lastNotWS_of_getLast hlast ht
  rw [pyStrip, rstripWS_eq_self hlnw]
  exact ⟨hlne, hlast⟩

/-- The sentence list splits as the stripped non-final pieces (all kept by the
filter) followed by at most one final piece. -/
theorem sentencesOf_decomp (l : List Char) :
    ∃ B : List (List Char),
      sentencesOf l = ((sentPieces l).dropLast.map pyStrip) ++ B ∧
      B.length ≤ 1 := by
  have hne := sentGo_ne_nil l false []
  have hsplit := List.dropLast_append_getLast (l := sentPieces l) hne
  refine ⟨([(sentPieces l).getLast hne].map pyStrip).filter (· ≠ []), ?_, ?_⟩
  · rw [sentencesOf]
    conv_lhs => rw [← hsplit]
    rw [List.map_append, List.filter_append]
    congr 1
    apply List.filter_eq_self.mpr
    intro a ha
    rcases List.mem_map.mp ha with ⟨piece, hpmem, rfl⟩
    obtain ⟨t, htl, htt⟩ := sentGo_dropLast_term l false [] piece hpmem
    have hkeep := pyStrip_getLast htl (term_not_ws htt)
    simpa using hkeep.1
  · calc (([(sentPieces l).getLast hne].map pyStrip).filter (· ≠ [])).length
        ≤ ([(sentPieces l).getLast hne].map pyStrip).length :=
          List.length_filter_le _ _
      _ = 1 := by simp

/-- Every sentence of a no-double-space text is non-empty, split-point free,
trimmed on both sides, and inherits the character-class invariants. -/
theorem sentencesOf_props {l : List Char} (hsp : allSpaceWS l = true)
    (hadj : noAdjWS l = true) :
    ∀ s ∈ sentencesOf l, s ≠ [] ∧ noSP s = true ∧ headNotWS s = true ∧
      lastNotWS s = true ∧ allSpaceWS s = true ∧ noAdjWS s = true := by
  intro s hs
  rw [sentencesOf] at hs
  have hs' := List.mem_filter.mp hs
  have hne : s ≠ [] := by simpa using hs'.2
  rcases List.mem_map.mp hs'.1 with ⟨piece, hpmem, rfl⟩
  obtain ⟨pre, post, hinf⟩ := sentGo_infix l false [] (by simp) piece hpmem
  simp only [List.reverse_nil, List.nil_append] at hinf
  have hsub : ∀ c ∈ pyStrip piece, c ∈ l := by
    intro c hc
    have h1 := mem_pyStrip hc
    rw [← hinf]
    simp [h1]
  have hpiece_adj : noAdjWS piece = true := by
    have h1 : noAdjWS (pre ++ piece ++ post) = true := by rw [hinf]; exact hadj
    rw [List.append_assoc] at h1
    exact adjOK_append_left (adjOK_append_right h1)
  refine ⟨hne, ?_, headNotWS_pyStrip _, lastNotWS_pyStrip _, ?_, ?_⟩
  · exact adjOK_pyStrip
      (sentGo_noSP l false [] rfl (fun h => by simp at h) piece hpmem)
  · exact allSpaceWS_of_subset hsub hsp
  · exact adjOK_pyStrip hpiece_adj

/-- When there are more than four sentences, the first four all end in a
terminal character. -/
theorem sentencesOf_take4 {l : List Char} (hlen : (sentencesOf l).length > 4) :
    ((sentencesOf l).take 4).length = 4 ∧
    ∀ s ∈ (sentencesOf l).take 4,
      ∃ t, s.getLast? = some t ∧ isTermChar t = true := by
  obtain ⟨B, hdec, hB⟩ := sentencesOf_decomp l
  constructor
  · rw [List.length_take]
    have : 4 ≤ (sentencesOf l).length := by omega
    omega
  · intro s hs
    have hA_len : 4 ≤ ((sentPieces l).dropLast.map pyStrip).length := by
      have hlen' := congrArg List.length hdec
      rw [List.length_append] at hlen'
      omega
    rw [hdec, List.take_append_of_le_length hA_len] at hs
    have hs' := (List.take_sublist _ _).subset hs
    rcases List.mem_map.mp hs' with ⟨piece, hpmem, rfl⟩
    obtain ⟨t, htl, htt⟩ := sentGo_dropLast_term l false [] piece hpmem
    have hkeep := pyStrip_getLast htl (term_not_ws htt)
    exact ⟨t, hkeep.2, htt⟩

/-- Joining non-empty trimmed pieces by single spaces preserves all the
normal-form character invariants. -/
theorem intercalate_norm :
    ∀ ss : List (List Char), ss ≠ [] →
    (∀ s ∈ ss, s ≠ [] ∧ headNotWS s = true ∧ lastNotWS s = true ∧
      allSpaceWS s = true ∧ noAdjWS s = true) →
    List.intercalate [' '] ss ≠ [] ∧
    headNotWS (List.intercalate [' '] ss) = true ∧
    lastNotWS (List.intercalate [' '] ss) = true ∧
    allSpaceWS (List.intercalate [' '] ss) = true ∧
    noAdjWS (List.intercalate [' '] ss) = true := by
  intro ss
  induction ss with
  | nil => intro h _; exact absurd rfl h
  | cons s t ih =>
    intro _ hprops
    obtain ⟨hs_ne, hs_head, hs_last, hs_sp, hs_adj⟩ := hprops s (by simp)
    cases t with
    | nil =>
      rw [intercalate_single]
      exact ⟨hs_ne, hs_head, hs_last, hs_sp, hs_adj⟩
    | cons b u =>
      obtain ⟨hI_ne, hI_head, hI_last, hI_sp, hI_adj⟩ :=
        ih (by simp) (fun x hx => hprops x (by simp [hx]))
      rw [intercalate_cons_cons, List.append_assoc]
      have hmid : ([' '] ++ List.intercalate [' '] (b :: u)) =
          ' ' :: List.intercalate [' '] (b :: u) := rfl
      rw [hmid]
      have htail_ne : (' ' :: List.intercalate [' '] (b :: u)) ≠ [] := by simp
      refine ⟨by simp [hs_ne], ?_, ?_, ?_, ?_⟩
      · rw [headNotWS_append_ne _ hs_ne]
        exact hs_head
      · rw [lastNotWS_append_ne _ htail_ne]
        have : lastNotWS (' ' :: List.intercalate [' '] (b :: u)) =
            lastNotWS ([' '] ++ List.intercalate [' '] (b :: u)) := rfl
        rw [this, lastNotWS_append_ne _ hI_ne]
        exact hI_last
      · rw [allSpaceWS, List.all_append]
        simp only [Bool.and_eq_true]
        constructor
        · exact hs_sp
        · rw [show (' ' :: List.intercalate [' '] (b :: u)).all _ =
            allSpaceWS (' ' :: List.intercalate [' '] (b :: u)) from rfl]
          rw [allSpaceWS, List.all_cons]
          simp only [Bool.and_eq_true]
          exact ⟨by decide, hI_sp⟩
      · apply adjOK_append _ s hs_adj
        · intro a d ha hd
          have hd' : ' ' = d := by simpa using hd
          subst hd'
          have haw := lastNotWS_getLast? hs_last ha
          simp [haw]
        · apply adjOK_cons hI_adj
          intro d hd
          have hdw := headNotWS_head? hI_head hd
          simp [hdw]

/-! ## The word-truncation stage -/

theorem mem_rstripPunct {c : Char} {l : List Char} (h : c ∈ rstripPunct l) :
    c ∈ l := by
  rw [rstripPunct] at h
  rw [List.mem_reverse] at h
  have := (List.dropWhile_sublist (p := isPunctChar) (l := l.reverse)).subset h
  rwa [List.mem_reverse] at this

theorem allNotWS_noAdjWS {w : List Char}
    (h : ∀ c ∈ w, c.isWhitespace = false) : noAdjWS w = true := by
  induction w with
  | nil => rfl
  | cons c t ih =>
    apply adjOK_cons (ih (fun x hx => h x (by simp [hx])))
    intro b _
    simp [h c (by simp)]

theorem word_norm_props {w : List Char} (hne : w ≠ [])
    (hnw : ∀ c ∈ w, c.isWhitespace = false) :
    headNotWS w = true ∧ lastNotWS w = true ∧ allSpaceWS w = true ∧
      noAdjWS w = true := by
  refine ⟨?_, ?_, ?_, allNotWS_noAdjWS hnw⟩
  · cases w with
    | nil => rfl
    | cons c t =>
      rw [headNotWS]
      simp [hnw c (by simp)]
  · have hgl : w.getLast? = some (w.getLast hne) := List.getLast?_eq_getLast w hne
    exact lastNotWS_of_getLast hgl
      (hnw _ (List.mem_of_mem_getLast? (by rw [hgl]; rfl)))
  · rw [allSpaceWS, List.all_eq_true]
    intro c hc
    simp [hnw c hc]

theorem intercalate_snoc :
    ∀ (ss : List (List Char)) (w : List Char), ss ≠ [] →
      List.intercalate [' '] (ss ++ [w]) =
        List.intercalate [' '] ss ++ ' ' :: w := by
  intro ss
  induction ss with
  | nil => intro w h; exact absurd rfl h
  | cons s t ih =>
    intro w _
    cases t with
    | nil =>
      rw [show ([s] ++ [w]) = [s, w] from rfl, intercalate_cons_cons,
        intercalate_single, intercalate_single, List.append_assoc]
      rfl
    | cons b u =>
      rw [show ((s :: b :: u) ++ [w]) = s :: ((b :: u) ++ [w]) from rfl]
      have hbu : (b :: u) ++ [w] = b :: (u ++ [w]) := rfl
      rw [hbu, intercalate_cons_cons, ← hbu, ih w (by simp),
        intercalate_cons_cons, List.append_assoc, List.append_assoc,
        List.append_assoc]

theorem dropWhile_append_stop {p : Char → Bool} {d : Char} (hd : p d = false)
    (x y : List Char) :
    List.dropWhile p (x ++ d :: y) = List.dropWhile p x ++ d :: y := by
  induction x with
  | nil => simp [List.dropWhile_cons, hd]
  | cons c t ih =>
    by_cases hc : p c <;> simp [List.dropWhile_cons, hc, ih]

theorem rstripPunct_append_sep (A w : List Char) :
    rstripPunct (A ++ ' ' :: w) = A ++ ' ' :: rstripPunct w := by
  rw [rstripPunct, rstripPunct]
  rw [show (A ++ ' ' :: w).reverse = w.reverse ++ ' ' :: A.reverse from by
    rw [show (' ' :: w) = [' '] ++ w from rfl, ← List.append_assoc,
      List.reverse_append, List.reverse_append]
    simp]
  rw [dropWhile_append_stop (by decide)]
  rw [List.reverse_append, List.reverse_cons, List.reverse_reverse,
    List.append_assoc]
  rfl

theorem flatten_map_singleton (l : List (List Char)) :
    (l.map (fun w => [w])).flatten = l := by
  induction l with
  | nil => rfl
  | cons a t ih => simp [ih]

theorem wordsOf_intercalate_words {wl : List (List Char)}
    (hwl : ∀ w ∈ wl, w ≠ [] ∧ ∀ c ∈ w, c.isWhitespace = false) :
    wordsOf (List.intercalate [' '] wl) = wl := by
  rw [wordsOf_intercalate]
  have hmap : wl.map wordsOf = wl.map (fun w => [w]) := by
    apply List.map_congr_left
    intro w hw
    exact runsGo_single_word (hwl w hw).1
      (fun c hc => by simp [(hwl w hw).2 c hc])
  rw [hmap, flatten_map_singleton]

theorem trunc_output_norm {wl : List (List Char)}
    (hwl : ∀ w ∈ wl, w ≠ [] ∧ ∀ c ∈ w, c.isWhitespace = false)
    (hne : wl ≠ []) :
    normChars (rstripPunct (List.intercalate [' '] wl) ++ ['.']) = true := by
  obtain ⟨hj_ne, hj_head, hj_last, hj_sp, hj_adj⟩ :=
    intercalate_norm wl hne (fun w hw =>
      ⟨(hwl w hw).1, (word_norm_props (hwl w hw).1 (hwl w hw).2).1,
       (word_norm_props (hwl w hw).1 (hwl w hw).2).2.1,
       (word_norm_props (hwl w hw).1 (hwl w hw).2).2.2.1,
       (word_norm_props (hwl w hw).1 (hwl w hw).2).2.2.2⟩)
  have hr_sub : ∀ c ∈ rstripPunct (List.intercalate [' '] wl),
      c ∈ List.intercalate [' '] wl := fun c hc => mem_rstripPunct hc
  have hr_sp : allSpaceWS (rstripPunct (List.intercalate [' '] wl)) = true :=
    allSpaceWS_of_subset hr_sub hj_sp
  have hr_adj : noAdjWS (rstripPunct (List.intercalate [' '] wl)) = true := by
    apply adjOK_append_left
      (y := ((List.intercalate [' '] wl).reverse.takeWhile isPunctChar).reverse)
    rw [rstripPunct_append]
    exact hj_adj
  have hr_head : headNotWS (rstripPunct (List.intercalate [' '] wl)) = true := by
    by_cases hrp : rstripPunct (List.intercalate [' '] wl) = []
    · rw [hrp]; rfl
    · have h2 : headNotWS (rstripPunct (List.intercalate [' '] wl) ++
          ((List.intercalate [' '] wl).reverse.takeWhile isPunctChar).reverse)
          = true := by
        rw [rstripPunct_append]
        exact hj_head
      rwa [headNotWS_append_ne _ hrp] at h2
  rw [normChars]
  simp only [Bool.and_eq_true]
  refine ⟨⟨⟨?_, ?_⟩, ?_⟩, ?_⟩
  · rw [allSpaceWS, List.all_append]
    simp only [Bool.and_eq_true]
    exact ⟨hr_sp, by decide⟩
  · apply adjOK_snoc hr_adj
    intro a _
    have hdot : ('.' : Char).isWhitespace = false := by decide
    simp [hdot]
  · by_cases hrp : rstripPunct (List.intercalate [' '] wl) = []
    · rw [hrp]; decide
    · rw [headNotWS_append_ne _ hrp]
      exact hr_head
  · rw [lastNotWS_append_ne _ (by simp)]
    decide

theorem trunc_output_words {wl : List (List Char)}
    (hwl : ∀ w ∈ wl, w ≠ [] ∧ ∀ c ∈ w, c.isWhitespace = false)
    (hlen : wl.length = 80) :
    (wordsOf (rstripPunct (List.intercalate [' '] wl) ++ ['.'])).length = 80 := by
  have hne : wl ≠ [] := by intro h; rw [h] at hlen; simp at hlen
  have hsplit := List.dropLast_append_getLast (l := wl) hne
  have hdne : wl.dropLast ≠ [] := by
    intro h
    have hl := congrArg List.length hsplit
    rw [List.length_append, h] at hl
    simp at hl
    omega
  have hjoin : List.intercalate [' '] wl =
      List.intercalate [' '] wl.dropLast ++ ' ' :: wl.getLast hne := by
    conv_lhs => rw [← hsplit]
    exact intercalate_snoc wl.dropLast (wl.getLast hne) hdne
  rw [hjoin, rstripPunct_append_sep, List.append_assoc]
  rw [show (' ' :: rstripPunct (wl.getLast hne)) ++ ['.'] =
    ' ' :: (rstripPunct (wl.getLast hne) ++ ['.']) from rfl]
  rw [wordsOf_append_ws (by decide), List.length_append]
  have h1 : wordsOf (List.intercalate [' '] wl.dropLast) = wl.dropLast :=
    wordsOf_intercalate_words
      (fun w hw => hwl w ((List.dropLast_sublist wl).subset hw))
  have h2 : wordsOf (rstripPunct (wl.getLast hne) ++ ['.']) =
      [rstripPunct (wl.getLast hne) ++ ['.']] := by
    apply runsGo_single_word (by simp)
    intro c hc
    rcases List.mem_append.mp hc with h | h
    · simp [(hwl (wl.getLast hne) (List.getLast_mem hne)).2 c
        (mem_rstripPunct h)]
    · have hc' : c = '.' := by simpa using h
      subst hc'
      decide
  rw [h1, h2, List.length_dropLast, hlen]
  rfl

theorem afterWordTrunc_spec {x : List Char} (hn : normChars x = true) :
    normChars (afterWordTrunc x) = true ∧
    (wordsOf (afterWordTrunc x)).length ≤ 80 := by
  rw [afterWordTrunc]
  by_cases h : (wordsOf x).length > 80
  · rw [if_pos h]
    have hwl : ∀ w ∈ (wordsOf x).take 80,
        w ≠ [] ∧ ∀ c ∈ w, c.isWhitespace = false :=
      fun w hw => wordsOf_mem w ((List.take_sublist _ _).subset hw)
    have hlen : ((wordsOf x).take 80).length = 80 := by
      rw [List.length_take]
      omega
    refine ⟨?_, le_of_eq (trunc_output_words hwl hlen)⟩
    exact trunc_output_norm hwl
      (by intro hnil; rw [hnil] at hlen; simp at hlen)
  · rw [if_neg h]
    exact ⟨hn, by omega⟩

/-! ## The sentence-truncation stage -/

theorem filter_strip_words_flatten :
    ∀ P : List (List Char),
      ((((P.map pyStrip).filter (· ≠ [])).map wordsOf)).flatten =
        ((P.map wordsOf)).flatten := by
  intro P
  induction P with
  | nil => rfl
  | cons p t ih =>
    by_cases hp : pyStrip p = []
    · rw [List.map_cons, List.filter_cons]
      rw [show (decide (pyStrip p ≠ [])) = false by simp [hp]]
      simp only [Bool.false_eq_true, if_false]
      rw [ih, List.map_cons, List.flatten_cons]
      have hw : wordsOf p = [] := by
        rw [← wordsOf_pyStrip p, hp]
        rfl
      rw [hw]
      rfl
    · rw [List.map_cons, List.filter_cons]
      rw [show (decide (pyStrip p ≠ [])) = true by simp [hp]]
      simp only [if_true]
      rw [List.map_cons, List.flatten_cons, ih, List.map_cons,
        List.flatten_cons, wordsOf_pyStrip]

theorem sentencesOf_words (l : List Char) :
    ((sentencesOf l).map wordsOf).flatten = wordsOf l := by
  have h1 := sentGo_words l false [] (fun h => by simp at h)
  simp only [List.reverse_nil, List.nil_append] at h1
  rw [sentencesOf, sentPieces] at *
  rw [filter_strip_words_flatten, h1]

theorem flatten_take_words_le (ss : List (List Char)) (n : Nat) :
    (((ss.take n).map wordsOf).flatten).length ≤
      ((ss.map wordsOf).flatten).length := by
  conv_rhs => rw [← List.take_append_drop n ss]
  rw [List.map_append, List.flatten_append, List.length_append]
  omega

theorem intercalate_ne_nil :
    ∀ ss : List (List Char), ss ≠ [] → (∀ s ∈ ss, s ≠ []) →
      List.intercalate [' '] ss ≠ [] := by
  intro ss
  induction ss with
  | nil => intro h _; exact absurd rfl h
  | cons s t ih =>
    intro _ hall
    cases t with
    | nil =>
      rw [intercalate_single]
      exact hall s (by simp)
    | cons b u =>
      rw [intercalate_cons_cons]
      intro hnil
      rcases List.append_eq_nil.mp hnil with ⟨h1, _⟩
      rcases List.append_eq_nil.mp h1 with ⟨h2, _⟩
      exact hall s (by simp) h2

theorem intercalate_getLast? :
    ∀ (ss : List (List Char)) (w : List Char), ss.getLast? = some w →
      (∀ s ∈ ss, s ≠ []) →
      (List.intercalate [' '] ss).getLast? = w.getLast? := by
  intro ss
  induction ss with
  | nil => intro w hw _; simp at hw
  | cons s t ih =>
    intro w hw hall
    cases t with
    | nil =>
      have hsw : s = w := by simpa using hw
      subst hsw
      rw [intercalate_single]
    | cons b u =>
      rw [List.getLast?_cons_cons] at hw
      rw [intercalate_cons_cons, List.append_assoc]
      rw [List.getLast?_append_of_ne_nil _
        (show ([' '] ++ List.intercalate [' '] (b :: u)) ≠ [] by simp)]
      rw [List.getLast?_append_of_ne_nil _
        (intercalate_ne_nil (b :: u) (by simp)
          (fun x hx => hall x (by simp [hx])))]
      exact ih w hw (fun x hx => hall x (by simp [hx]))

theorem ensureTerminal_of_term {c : List Char} {t : Char}
    (h : c.getLast? = some t) (ht : isTermChar t = true) :
    ensureTerminal c = c := by
  rw [ensureTerminal, h]
  simp [ht]

theorem afterSentTrunc_spec {x : List Char} (hn : normChars x = true)
    (hw : (wordsOf x).length ≤ 80) :
    normChars (afterSentTrunc x) = true ∧
    (wordsOf (afterSentTrunc x)).length ≤ 80 ∧
    (sentencesOf (afterSentTrunc x)).length ≤ 4 := by
  rw [afterSentTrunc]
  by_cases h : (sentencesOf x).length > 4
  · rw [if_pos h]
    obtain ⟨hsp, hadj, hhead, hlast⟩ := normChars_parts hn
    obtain ⟨hlen4, hterm4⟩ := sentencesOf_take4 h
    have hprops : ∀ s ∈ (sentencesOf x).take 4,
        s ≠ [] ∧ noSP s = true ∧ headNotWS s = true ∧ lastNotWS s = true ∧
          allSpaceWS s = true ∧ noAdjWS s = true :=
      fun s hs => sentencesOf_props hsp hadj s ((List.take_sublist _ _).subset hs)
    have hne4 : (sentencesOf x).take 4 ≠ [] := by
      intro hnil
      rw [hnil] at hlen4
      simp at hlen4
    obtain ⟨hj_ne, hj_head, hj_last, hj_sp, hj_adj⟩ :=
      intercalate_norm ((sentencesOf x).take 4) hne4
        (fun s hs => ⟨(hprops s hs).1, (hprops s hs).2.2.1,
          (hprops s hs).2.2.2.1, (hprops s hs).2.2.2.2.1,
          (hprops s hs).2.2.2.2.2⟩)
    have hc : pyStrip (List.intercalate [' '] ((sentencesOf x).take 4)) =
        List.intercalate [' '] ((sentencesOf x).take 4) :=
      pyStrip_eq_self hj_head hj_last
    rw [hc]
    have hgl : ((sentencesOf x).take 4).getLast? =
        some (((sentencesOf x).take 4).getLast hne4) :=
      List.getLast?_eq_getLast _ hne4
    obtain ⟨t, htl, htt⟩ := hterm4 _ (List.getLast_mem hne4)
    have hjl : (List.intercalate [' '] ((sentencesOf x).take 4)).getLast? =
        some t := by
      rw [intercalate_getLast? _ _ hgl (fun s hs => (hprops s hs).1)]
      exact htl
    rw [ensureTerminal_of_term hjl htt]
    have hpieces : sentPieces (List.intercalate [' ']
        ((sentencesOf x).take 4)) = (sentencesOf x).take 4 := by
      rw [sentPieces]
      exact sentGo_rejoin _ hne4 (fun s hs =>
        ⟨(hprops s hs).1, (hprops s hs).2.1, (hprops s hs).2.2.1,
          hterm4 s hs⟩)
    have hsent : sentencesOf (List.intercalate [' ']
        ((sentencesOf x).take 4)) = (sentencesOf x).take 4 := by
      rw [sentencesOf, hpieces]
      have hmap : ((sentencesOf x).take 4).map pyStrip =
          ((sentencesOf x).take 4).map id := by
        apply List.map_congr_left
        intro s hs
        exact pyStrip_eq_self (hprops s hs).2.2.1 (hprops s hs).2.2.2.1
      rw [hmap, List.map_id]
      apply List.filter_eq_self.mpr
      intro s hs
      simp [(hprops s hs).1]
    refine ⟨?_, ?_, ?_⟩
    · rw [normChars]
      simp only [Bool.and_eq_true]
      exact ⟨⟨⟨hj_sp, hj_adj⟩, hj_head⟩, hj_last⟩
    · rw [wordsOf_intercalate]
      calc ((((sentencesOf x).take 4).map wordsOf).flatten).length
          ≤ (((sentencesOf x).map wordsOf).flatten).length :=
            flatten_take_words_le _ 4
        _ = (wordsOf x).length := by rw [sentencesOf_words]
        _ ≤ 80 := hw
    · rw [hsent, hlen4]
  · rw [if_neg h]
    exact ⟨hn, hw, by omega⟩

/-! ## The answer shaper: master invariants, idempotence and bounds -/

/-- Every output of the shaper is whitespace-normalised, has at most 80
words, at most 4 sentences, and is non-empty. -/
theorem shortChars_invariants (l : List Char) :
    normChars (shortChars l) = true ∧
    (wordsOf (shortChars l)).length ≤ 80 ∧
    (sentencesOf (shortChars l)).length ≤ 4 ∧
    shortChars l ≠ [] := by
  rw [shortChars]
  by_cases hc : afterSentTrunc (afterWordTrunc (pyStrip (pyCollapse l))) = []
  · rw [if_pos hc]
    exact ⟨by decide, by decide, by decide, by decide⟩
  · rw [if_neg hc]
    have h0 := normChars_clean l
    obtain ⟨h1n, h1w⟩ := afterWordTrunc_spec h0
    obtain ⟨h2n, h2w, h2s⟩ := afterSentTrunc_spec h1n h1w
    exact ⟨h2n, h2w, h2s, hc⟩

/-- Text that is already normalised, within both bounds and non-empty is a
fixed point of the shaper. -/
theorem shortChars_fixed {y : List Char} (hn : normChars y = true)
    (hw : (wordsOf y).length ≤ 80) (hs : (sentencesOf y).length ≤ 4)
    (hne : y ≠ []) : shortChars y = y := by
  have e1 : pyStrip (pyCollapse y) = y := clean_eq_self hn
  have e2 : afterWordTrunc y = y := by
    rw [afterWordTrunc, if_neg (by omega)]
  have e3 : afterSentTrunc y = y := by
    rw [afterSentTrunc, if_neg (by omega)]
  rw [shortChars, e1, e2, e3, if_neg hne]

theorem shortify_answer_def (s : String) :
    shortify_answer s = String.mk (shortChars s.toList) := rfl

theorem toList_mk (x : List Char) : (String.mk x).toList = x := rfl

theorem shortChars_def (l : List Char) :
    shortChars l =
      if afterSentTrunc (afterWordTrunc (pyStrip (pyCollapse l))) = [] then
        fallbackPhrase.toList
      else afterSentTrunc (afterWordTrunc (pyStrip (pyCollapse l))) := rfl

attribute [irreducible] shortChars shortify_answer

/-- C3: the answer shaper is idempotent — applying `shortify_answer` twice
yields the same result as applying it once, for every input string. -/
theorem shortify_answer_idempotent (s : String) :
    shortify_answer (shortify_answer s) = shortify_answer s := by
  obtain ⟨hn, hw, hs, hne⟩ := shortChars_invariants s.toList
  rw [shortify_answer_def (shortify_answer s), shortify_answer_def s,
    toList_mk, shortChars_fixed hn hw hs hne]

/-- Collapsing preserves the all-whitespace property. -/
theorem collapseGo_all_ws {l : List Char}
    (h : ∀ c ∈ l, c.isWhitespace = true) :
    ∀ b, ∀ c ∈ collapseGo b l, c.isWhitespace = true := by
  induction l with
  | nil => intro b c hc; cases b <;> simp [collapseGo] at hc
  | cons d cs ih =>
    intro b c hc
    have hd : d.isWhitespace = true := h d (by simp)
    cases b
    · rw [show collapseGo false (d :: cs) = ' ' :: collapseGo true cs from by
        simp [collapseGo, hd]] at hc
      rcases List.mem_cons.mp hc with h' | h'
      · subst h'; decide
      · exact ih (fun x hx => h x (by simp [hx])) true c h'
    · rw [show collapseGo true (d :: cs) = collapseGo true cs from by
        simp [collapseGo, hd]] at hc
      exact ih (fun x hx => h x (by simp [hx])) true c hc

/-- Whitespace-only input cleans to the empty text. -/
theorem clean_empty_of_all_ws {l : List Char}
    (h : ∀ c ∈ l, c.isWhitespace = true) :
    pyStrip (pyCollapse l) = [] := by
  have hall : ∀ c ∈ pyCollapse l, c.isWhitespace = true :=
    collapseGo_all_ws h false
  rw [pyStrip, lstripWS, List.dropWhile_eq_nil_iff.mpr hall]
  rfl

/-- C4: the answer shaper is a total function that never returns an empty
answer, always stays within 80 words and 4 sentences (as measured by the
code's own word and sentence splitters), and returns the fixed fallback
phrase on empty or whitespace-only input. -/
theorem shortify_answer_bounded (s : String) :
    shortify_answer s ≠ "" ∧
    (wordsOf (shortify_answer s).toList).length ≤ 80 ∧
    (sentencesOf (shortify_answer s).toList).length ≤ 4 ∧
    ((∀ c ∈ s.toList, c.isWhitespace = true) →
      shortify_answer s = fallbackPhrase) := by
  obtain ⟨hn, hw, hs, hne⟩ := shortChars_invariants s.toList
  have ha : shortify_answer s ≠ "" := by
    intro h
    apply hne
    rw [shortify_answer_def s] at h
    have h2 : shortChars s.toList = ("" : String).data := congrArg String.data h
    have h3 : ("" : String).data = [] := rfl
    exact h2.trans h3
  have hb : (wordsOf (shortify_answer s).toList).length ≤ 80 := by
    rw [shortify_answer_def s]
    rw [toList_mk]
    exact hw
  have hc : (sentencesOf (shortify_answer s).toList).length ≤ 4 := by
    rw [shortify_answer_def s]
    rw [toList_mk]
    exact hs
  have hd : (∀ c ∈ s.toList, c.isWhitespace = true) →
      shortify_answer s = fallbackPhrase := by
    intro hws
    have h1 : afterWordTrunc ([] : List Char) = [] := by decide
    have h2 : afterSentTrunc ([] : List Char) = [] := by decide
    rw [shortify_answer_def s]
    rw [shortChars_def]
    rw [clean_empty_of_all_ws hws]
    rw [h1]
    rw [h2]
    rw [if_pos rfl]
    rfl
  exact ⟨ha, hb, hc, hd⟩

/-- Witness for `shortify_answer_bounded`: a whitespace-only input maps to
the fallback phrase. -/
theorem shortify_answer_bounded_witness :
    (∀ c ∈ (" \t " : String).toList, c.isWhitespace = true) ∧
    shortify_answer " \t " = fallbackPhrase :=
  ⟨by decide, (shortify_answer_bounded " \t ").2.2.2 (by decide)⟩
